import Mathlib

/-!
A shallow embedding of the data-preprocessing and feature-engineering
pipeline of the repository (`src/data/preprocessing.py` and
`src/data/features.py`), together with theorems settling the
specification claims.

Modelling conventions:

* pandas float64 cells are modelled by `FVal`: a finite float is a
  rational (`fin q`), and the special values `inf`, `-inf`, `NaN` are
  `pinf`, `ninf`, `nan`.  Arithmetic follows IEEE-754 on these cases
  (the sign of zero is not distinguished; none of the operations used
  by the pipeline depends on it).
* A `DF` is a pandas DataFrame: an ordered list of named numeric
  columns plus an optional string-typed `label` column (pandas object
  dtype), and the row count `nrows`.  `DF.WF` says every column really
  has `nrows` entries.
* The two irrational numeric kernels of numpy — `math` square root
  (used by `rolling(...).std()`) and `np.abs(np.fft.rfft(...))` — are
  parameters of the embedding, bundled in `Kernel`.  The float results
  of those kernels are again rationals; the only fact the code relies
  on is numpy's documented output length of `rfft`
  (`len = n // 2 + 1`), which is the `rfftMag_length` field.
-/

/-- An IEEE-754 style pandas float64 value: finite values are rationals,
plus `inf`, `-inf` and `NaN`. -/
inductive FVal where
  | fin (q : ℚ)
  | pinf
  | ninf
  | nan
deriving DecidableEq

/-- `pd.isna` on a float value. -/
def FVal.isNan : FVal → Bool
  | .nan => true
  | _ => false

/-- Finiteness of a float value. -/
def FVal.isFin : FVal → Bool
  | .fin _ => true
  | _ => false

/-- IEEE addition on float values. -/
def fvAdd : FVal → FVal → FVal
  | .nan, _ => .nan
  | _, .nan => .nan
  | .fin a, .fin b => .fin (a + b)
  | .fin _, .pinf => .pinf
  | .fin _, .ninf => .ninf
  | .pinf, .fin _ => .pinf
  | .ninf, .fin _ => .ninf
  | .pinf, .pinf => .pinf
  | .ninf, .ninf => .ninf
  | .pinf, .ninf => .nan
  | .ninf, .pinf => .nan

/-- IEEE negation on float values. -/
def fvNeg : FVal → FVal
  | .fin a => .fin (-a)
  | .pinf => .ninf
  | .ninf => .pinf
  | .nan => .nan

/-- IEEE subtraction on float values. -/
def fvSub (a b : FVal) : FVal := fvAdd a (fvNeg b)

/-- IEEE multiplication on float values (`inf * 0 = NaN`). -/
def fvMul : FVal → FVal → FVal
  | .nan, _ => .nan
  | _, .nan => .nan
  | .fin a, .fin b => .fin (a * b)
  | .fin a, .pinf => if 0 < a then .pinf else if a < 0 then .ninf else .nan
  | .fin a, .ninf => if 0 < a then .ninf else if a < 0 then .pinf else .nan
  | .pinf, .fin b => if 0 < b then .pinf else if b < 0 then .ninf else .nan
  | .ninf, .fin b => if 0 < b then .ninf else if b < 0 then .pinf else .nan
  | .pinf, .pinf => .pinf
  | .pinf, .ninf => .ninf
  | .ninf, .pinf => .ninf
  | .ninf, .ninf => .pinf

/-- IEEE division on float values: `x/0` is `±inf` for `x ≠ 0` and `NaN`
for `x = 0`, exactly what a pandas float column division produces. -/
def fvDiv : FVal → FVal → FVal
  | .nan, _ => .nan
  | _, .nan => .nan
  | .fin a, .fin b =>
      if b = 0 then (if a = 0 then .nan else if 0 < a then .pinf else .ninf)
      else .fin (a / b)
  | .fin _, .pinf => .fin 0
  | .fin _, .ninf => .fin 0
  | .pinf, .fin b => if b < 0 then .ninf else .pinf
  | .ninf, .fin b => if b < 0 then .pinf else .ninf
  | .pinf, .pinf => .nan
  | .pinf, .ninf => .nan
  | .ninf, .pinf => .nan
  | .ninf, .ninf => .nan

/-- IEEE `<` on float values: any comparison with `NaN` is false. -/
def fvLt : FVal → FVal → Bool
  | .nan, _ => false
  | _, .nan => false
  | .fin a, .fin b => decide (a < b)
  | .fin _, .pinf => true
  | .fin _, .ninf => false
  | .pinf, _ => false
  | .ninf, .ninf => false
  | .ninf, _ => true

/-- IEEE `≤` on float values: any comparison with `NaN` is false. -/
def fvLe : FVal → FVal → Bool
  | .nan, _ => false
  | _, .nan => false
  | .fin a, .fin b => decide (a ≤ b)
  | .fin _, .pinf => true
  | .fin _, .ninf => false
  | .pinf, .pinf => true
  | .pinf, _ => false
  | .ninf, _ => true

/-- Binary minimum as used by a left-to-right reduction (`NaN`-free input). -/
def fvMin2 (a b : FVal) : FVal := if fvLt b a then b else a

/-- Binary maximum as used by a left-to-right reduction (`NaN`-free input). -/
def fvMax2 (a b : FVal) : FVal := if fvLt a b then b else a

/-- The non-`NaN` entries of a column (pandas skips `NaN` in reductions). -/
def nonNan (xs : List FVal) : List FVal := xs.filter (fun x => !x.isNan)

/-- `Series.min()`: minimum over the non-`NaN` entries, `NaN` if none. -/
def seriesMin (xs : List FVal) : FVal :=
  match nonNan xs with
  | [] => .nan
  | h :: t => t.foldl fvMin2 h

/-- `Series.max()`: maximum over the non-`NaN` entries, `NaN` if none. -/
def seriesMax (xs : List FVal) : FVal :=
  match nonNan xs with
  | [] => .nan
  | h :: t => t.foldl fvMax2 h

/-- Forward fill with the carried last non-`NaN` value. -/
def ffillGo : Option FVal → List FVal → List FVal
  | _, [] => []
  | carry, x :: t =>
      if x.isNan then
        match carry with
        | some c => c :: ffillGo (some c) t
        | none => x :: ffillGo none t
      else x :: ffillGo (some x) t

/-- `fillna(method=ffill)` on one column. -/
def ffillCol (xs : List FVal) : List FVal := ffillGo none xs

/-- `fillna(method=bfill)` on one column. -/
def bfillCol (xs : List FVal) : List FVal := (ffillCol xs.reverse).reverse

/-- The sorting relation on float values used for the quantile. -/
def fvLeB (a b : FVal) : Prop := fvLe a b = true

instance : DecidableRel fvLeB :=
  fun a b => inferInstanceAs (Decidable (fvLe a b = true))

/-- Ascending sort of a column (applied after dropping `NaN`). -/
def sortF (xs : List FVal) : List FVal := List.insertionSort fvLeB xs

/-- `Series.quantile(q)` with the default linear interpolation of
numpy: on the ascending non-`NaN` values `v` of length `m`, the result
is `v[l] + g * (v[min(l+1, m-1)] - v[l])` where `l = ⌊q*(m-1)⌋` and
`g = q*(m-1) - l` (numpy clips the upper index).  `NaN` for an empty
column. -/
def quantileF (xs : List FVal) (q : ℚ) : FVal :=
  let v := sortF (nonNan xs)
  match v with
  | [] => .nan
  | _ =>
      let m := v.length
      let p : ℚ := q * ((m : ℚ) - 1)
      let l : ℕ := Int.toNat ⌊p⌋
      let g : ℚ := p - (l : ℚ)
      let a := v.getD l .nan
      let b := v.getD (min (l + 1) (m - 1)) .nan
      fvAdd a (fvMul (.fin g) (fvSub b a))

/-- `Series.fillna(0)` on one value. -/
def fillnaZero (x : FVal) : FVal := if x.isNan then .fin 0 else x

/-- `Series.clip(lower, upper)` on one value: values below `lower` are
replaced by `lower`, then values above `upper` by `upper`; comparisons
with a `NaN` bound fail, so a `NaN` bound clips nothing. -/
def fvClip (x lo hi : FVal) : FVal :=
  let y := if fvLt x lo then lo else x
  if fvLt hi y then hi else y

/-- One row of a labels DataFrame: the columns `Time(Seconds)`,
`Length(Seconds)` and `Label(string)`. -/
structure LabelRow where
  time : FVal
  len : FVal
  labelVal : String
deriving DecidableEq

/-- A pandas DataFrame: row count, named float columns in order, and an
optional string-typed `label` column. -/
structure DF where
  nrows : Nat
  cols : List (String × List FVal)
  label : Option (List String)
deriving DecidableEq

/-- The names of the numeric columns, in order. -/
def colNames (df : DF) : List String := df.cols.map Prod.fst

/-- All column names of the frame (`df.columns`), the `label` column
included when present. -/
def dfNames (df : DF) : List String :=
  colNames df ++ (match df.label with | some _ => ["label"] | none => [])

/-- Read a numeric column (`df[c]`); the first column of that name. -/
def getCol (df : DF) (c : String) : List FVal :=
  match df.cols.find? (fun p => p.1 == c) with
  | some p => p.2
  | none => []

/-- Write a numeric column (`df[c] = v`): replace every column of that
name, or append a new one. -/
def setCol (df : DF) (c : String) (v : List FVal) : DF :=
  if c ∈ colNames df then
    { df with cols := df.cols.map (fun p => if p.1 == c then (p.1, v) else p) }
  else
    { df with cols := df.cols ++ [(c, v)] }

/-- Well-formedness: every column holds exactly `nrows` values. -/
def DF.WF (df : DF) : Prop :=
  (∀ p ∈ df.cols, p.2.length = df.nrows) ∧
  (df.label.all (fun l => l.length == df.nrows) = true)

instance (df : DF) : Decidable df.WF := by
  unfold DF.WF
  infer_instance

/-- `g` has the same rows as `df` and is itself well-formed: the shape
every pipeline stage must preserve. -/
def keepsRows (df g : DF) : Prop := g.nrows = df.nrows ∧ g.WF

instance (df g : DF) : Decidable (keepsRows df g) := by
  unfold keepsRows
  infer_instance

/-- The `fillna(ffill).fillna(bfill)` pass applied to one named column. -/
def fillPair (p : String × List FVal) : String × List FVal :=
  (p.1, bfillCol (ffillCol p.2))

/-- The IQR clipping pass applied to one named column: non-`Time`
columns are clipped to `[Q1 - 1.5*IQR, Q3 + 1.5*IQR]`, the quartiles
taken over the column itself (the filled, pre-clip values). -/
def clipPair (p : String × List FVal) : String × List FVal :=
  if p.1 = "Time" then p
  else
    let q1 := quantileF p.2 (1/4)
    let q3 := quantileF p.2 (3/4)
    let iqr := fvSub q3 q1
    let lower := fvSub q1 (fvMul (.fin (3/2)) iqr)
    let upper := fvAdd q3 (fvMul (.fin (3/2)) iqr)
    (p.1, p.2.map (fun x => fvClip x lower upper))

/-- `clean_data` (src/data/preprocessing.py): forward fill then backward
fill of missing values over every column, then IQR clipping of every
non-`Time` column. -/
def clean_data (data : DF) : DF :=
  let filled : DF := { data with cols := data.cols.map fillPair }
  { filled with cols := filled.cols.map clipPair }

/-- Min-max scaling applied to one named column: a non-`Time` column
whose max exceeds its min is rescaled; other columns are unchanged. -/
def normPair (p : String × List FVal) : String × List FVal :=
  if p.1 = "Time" then p
  else
    let mn := seriesMin p.2
    let mx := seriesMax p.2
    if fvLt mn mx then
      (p.1, p.2.map (fun x => fvDiv (fvSub x mn) (fvSub mx mn)))
    else p

/-- `normalize_data` (src/data/preprocessing.py). -/
def normalize_data (data : DF) : DF :=
  { data with cols := data.cols.map normPair }

/-- One iteration of the label loop: set `label` to the row's value on
every data row whose `Time` lies in `[start_time, end_time]`. -/
def labelStep (timeCol : List FVal) (lab : List String) (r : LabelRow) : List String :=
  List.zipWith
    (fun t v => if fvLe r.time t && fvLe t (fvAdd r.time r.len) then r.labelVal else v)
    timeCol lab

/-- `add_label_column` (src/data/preprocessing.py): for a missing or
empty labels frame return the data unchanged; otherwise add a `label`
column defaulting to `"NotReady"` and apply every label interval in
iteration order. -/
def add_label_column (data : DF) (labels : Option (List LabelRow)) : DF :=
  match labels with
  | none => data
  | some rows =>
      if rows.isEmpty then data
      else
        let timeCol := getCol data "Time"
        let init := List.replicate data.nrows "NotReady"
        { data with label := some (rows.foldl (labelStep timeCol) init) }

/-- `preprocess_data` (src/data/preprocessing.py): clean, normalize and
label, each stage toggled by its flag; labelling also requires a labels
frame to be present. -/
def preprocess_data (data : DF) (labels : Option (List LabelRow))
    (clean : Bool) (normalize : Bool) (add_labels : Bool) : DF :=
  let r1 := if clean then clean_data data else data
  let r2 := if normalize then normalize_data r1 else r1
  if add_labels && labels.isSome then add_label_column r2 labels else r2

/-- The numeric kernels supplied by numpy, abstracted: `sqrtF` models
the float square root used by `rolling(...).std()`, and `rfftMagF`
models `np.abs(np.fft.rfft(window))` — a list of non-negative float
magnitudes whose length is `len(window) // 2 + 1` (numpy's documented
output shape, the only fact about `rfft` the code relies on). -/
structure Kernel where
  sqrtF : ℚ → ℚ
  rfftMagF : List FVal → List ℚ
  rfftMag_length : ∀ w, (rfftMagF w).length = w.length / 2 + 1

/-- The channel set a stage derives by default:
`[col for col in data.columns if col not in ['Time', 'label']]`. -/
def defaultColumns (data : DF) : List String :=
  (dfNames data).filter (fun c => !(c == "Time") && !(c == "label"))

/-- The trailing window of pandas `rolling(window=w, min_periods=1)`
ending at row `i`: rows `[max 0 (i+1-w), i]`. -/
def windowAt (xs : List FVal) (w i : Nat) : List FVal :=
  (xs.take (i + 1)).drop (i + 1 - w)

/-- Left-to-right float sum of a window. -/
def fvSum (xs : List FVal) : FVal := xs.foldl fvAdd (.fin 0)

/-- `rolling(...).mean()` of one window: mean of the non-`NaN` entries,
`NaN` if there are none. -/
def rollMean (w : List FVal) : FVal :=
  let v := nonNan w
  if v.length = 0 then .nan else fvDiv (fvSum v) (.fin (v.length : ℚ))

/-- Sample variance (`ddof = 1`) of one window over its non-`NaN`
entries; `NaN` for fewer than two observations. -/
def rollVar (w : List FVal) : FVal :=
  let v := nonNan w
  if v.length ≤ 1 then .nan
  else
    let m := fvDiv (fvSum v) (.fin (v.length : ℚ))
    fvDiv (fvSum (v.map (fun x => fvMul (fvSub x m) (fvSub x m))))
      (.fin ((v.length - 1 : ℕ) : ℚ))

/-- `rolling(...).std()` of one window: square root of the sample
variance (the abstract float square root for a finite variance). -/
def rollStd (K : Kernel) (w : List FVal) : FVal :=
  match rollVar w with
  | .fin q => .fin (K.sqrtF q)
  | .pinf => .pinf
  | _ => .nan

/-- `rolling(...).min()` of one window. -/
def rollMin (w : List FVal) : FVal := seriesMin w

/-- `rolling(...).max()` of one window. -/
def rollMax (w : List FVal) : FVal := seriesMax w

/-- The body of the rolling-statistics loop for one channel: add the
four `{col}_rolling_*` columns, the std one with its `fillna(0)`. -/
def rollingStep (K : Kernel) (window_size : Nat) (result : DF) (col : String) : DF :=
  let r1 := setCol result (col ++ "_rolling_mean")
    ((List.range (getCol result col).length).map
      (fun i => rollMean (windowAt (getCol result col) window_size i)))
  let r2 := setCol r1 (col ++ "_rolling_std")
    ((List.range (getCol r1 col).length).map
      (fun i => fillnaZero (rollStd K (windowAt (getCol r1 col) window_size i))))
  let r3 := setCol r2 (col ++ "_rolling_min")
    ((List.range (getCol r2 col).length).map
      (fun i => rollMin (windowAt (getCol r2 col) window_size i)))
  setCol r3 (col ++ "_rolling_max")
    ((List.range (getCol r3 col).length).map
      (fun i => rollMax (windowAt (getCol r3 col) window_size i)))

/-- `calculate_rolling_statistics` (src/data/features.py). -/
def calculate_rolling_statistics (K : Kernel) (data : DF) (window_size : Nat)
    (columns : Option (List String)) : DF :=
  let cols := columns.getD (defaultColumns data)
  cols.foldl (rollingStep K window_size) data

/-- `Series.diff()`: `NaN` at row 0, `x[i] - x[i-1]` afterwards. -/
def diffL : List FVal → List FVal
  | [] => []
  | x :: t => .nan :: List.zipWith fvSub t (x :: t)

/-- The body of the derivative loop for one channel, line for line:
`deriv1` from the value and `Time` diffs, `deriv2` from the raw
(not yet filled) `deriv1`, then `fillna(0)` on both. -/
def derivStep (result : DF) (col : String) : DF :=
  let d1raw := List.zipWith fvDiv (diffL (getCol result col)) (diffL (getCol result "Time"))
  let r1 := setCol result (col ++ "_deriv1") d1raw
  let d2raw := List.zipWith fvDiv (diffL (getCol r1 (col ++ "_deriv1"))) (diffL (getCol r1 "Time"))
  let r2 := setCol r1 (col ++ "_deriv2") d2raw
  let r3 := setCol r2 (col ++ "_deriv1") ((getCol r2 (col ++ "_deriv1")).map fillnaZero)
  setCol r3 (col ++ "_deriv2") ((getCol r3 (col ++ "_deriv2")).map fillnaZero)

/-- `calculate_derivatives` (src/data/features.py). -/
def calculate_derivatives (data : DF) (columns : Option (List String)) : DF :=
  let cols := columns.getD (defaultColumns data)
  cols.foldl derivStep data

/-- `np.fft.rfftfreq(n)`: the `n/2 + 1` frequency bins `k/n`. -/
def rfftfreq (n : Nat) : List ℚ :=
  List.map (fun k : Nat => (k : ℚ) / (n : ℚ)) (List.range (n / 2 + 1))

/-- Maximum of a list of floats-as-rationals (used on `fft_vals`). -/
def maxQ : List ℚ → ℚ
  | [] => 0
  | [x] => x
  | x :: y :: t => max x (maxQ (y :: t))

/-- `np.argmax`: index of the first occurrence of the maximum. -/
def argmaxQ : List ℚ → Nat
  | [] => 0
  | [_] => 0
  | x :: y :: t => if maxQ (y :: t) ≤ x then 0 else argmaxQ (y :: t) + 1

/-- The body of the FFT loop at one row `i`: the trailing window of the
channel, the `> 10` sample guard, the argmax over the non-DC bins, and
the index guard against `len(fft_freq)`. -/
def freqAt (K : Kernel) (xs : List FVal) (window_size i : Nat) : ℚ × ℚ :=
  let window := (xs.take (i + 1)).drop (i + 1 - window_size)
  if 10 < window.length then
    let fft_vals := K.rfftMagF window
    let fft_freq := rfftfreq window.length
    let idx := argmaxQ (fft_vals.drop 1) + 1
    if idx < fft_freq.length then (fft_freq.getD idx 0, fft_vals.getD idx 0)
    else (0, 0)
  else (0, 0)

/-- The per-row `(dominant frequency, dominant magnitude)` pairs of one
channel over all `n = len(data)` rows. -/
def freqPairs (K : Kernel) (xs : List FVal) (window_size n : Nat) : List (ℚ × ℚ) :=
  (List.range n).map (freqAt K xs window_size)

/-- The body of the FFT loop for one channel: the windows are sliced
from `data` (the function argument), not from the evolving result. -/
def freqStep (K : Kernel) (window_size n : Nat) (data : DF) (result : DF) (col : String) : DF :=
  let pairs := freqPairs K (getCol data col) window_size n
  let r1 := setCol result (col ++ "_dom_freq") (pairs.map (fun p => .fin p.1))
  setCol r1 (col ++ "_dom_mag") (pairs.map (fun p => .fin p.2))

/-- `extract_frequency_features` (src/data/features.py). -/
def extract_frequency_features (K : Kernel) (data : DF)
    (columns : Option (List String)) (window_size : Nat) : DF :=
  let cols := columns.getD (defaultColumns data)
  cols.foldl (freqStep K window_size data.nrows data) data

/-- `feature_engineering` (src/data/features.py): the channel set is
derived once from the input frame and passed to every enabled stage;
the FFT stage runs with a five-fold window. -/
def feature_engineering (K : Kernel) (data : DF)
    (include_rolling include_derivatives include_frequency : Bool)
    (window_size : Nat) : DF :=
  let columns := defaultColumns data
  let r1 := if include_rolling then calculate_rolling_statistics K data window_size (some columns) else data
  let r2 := if include_derivatives then calculate_derivatives r1 (some columns) else r1
  if include_frequency then extract_frequency_features K r2 (some columns) (window_size * 5) else r2

/-- The column names the rolling stage writes for the given channels. -/
def rollingNames (cols : List String) : List String :=
  cols.flatMap (fun c =>
    [c ++ "_rolling_mean", c ++ "_rolling_std", c ++ "_rolling_min", c ++ "_rolling_max"])

/-- The column names the derivative stage writes for the given channels. -/
def derivNames (cols : List String) : List String :=
  cols.flatMap (fun c => [c ++ "_deriv1", c ++ "_deriv2"])

/-- The column names the FFT stage writes for the given channels. -/
def freqNames (cols : List String) : List String :=
  cols.flatMap (fun c => [c ++ "_dom_freq", c ++ "_dom_mag"])

/-- The interpolated quantile on an already sorted list of rationals
(the all-finite reading of `quantileF`). -/
def interpQ (v : List ℚ) (q : ℚ) : ℚ :=
  let m := v.length
  let p : ℚ := q * ((m : ℚ) - 1)
  let l : ℕ := Int.toNat ⌊p⌋
  let g : ℚ := p - (l : ℚ)
  v.getD l 0 + g * (v.getD (min (l + 1) (m - 1)) 0 - v.getD l 0)

/-- The rational carried by a finite float value (0 otherwise). -/
def toQ : FVal → ℚ
  | .fin q => q
  | _ => 0

/-- A concrete kernel instance used to witness theorems that hold for
every kernel. -/
def kernel0 : Kernel where
  sqrtF := fun _ => 0
  rfftMagF := fun w => List.replicate (w.length / 2 + 1) 0
  rfftMag_length := fun w => List.length_replicate _ _

/-- A small well-formed frame: two rows, a `Time` channel and one data
channel. -/
def df1 : DF :=
  { nrows := 2
    cols := [("Time", [.fin 0, .fin 1]), ("x", [.fin 5, .fin 9])]
    label := none }

/-- A labels frame with a single interval. -/
def labels1 : List LabelRow := [{ time := .fin 0, len := .fin 1, labelVal := "A" }]

/-- The three-row frame of the derivative example of the specification:
`Time = [0,1,2]`, channel `x = [0,10,30]`. -/
def df6 : DF :=
  { nrows := 3
    cols := [("Time", [.fin 0, .fin 1, .fin 2]), ("x", [.fin 0, .fin 10, .fin 30])]
    label := none }

/-- A frame with a duplicated timestamp and a changing channel value. -/
def df5c : DF :=
  { nrows := 2
    cols := [("Time", [.fin 0, .fin 0]), ("x", [.fin 0, .fin 1])]
    label := none }

/-- A one-row frame used against the empty-label-table behaviour. -/
def df4c : DF :=
  { nrows := 1
    cols := [("Time", [.fin 0]), ("x", [.fin 7])]
    label := none }

/-- A frame whose row lies inside the interval of `labels4`. -/
def df4 : DF :=
  { nrows := 2
    cols := [("Time", [.fin 8, .fin 20]), ("x", [.fin 1, .fin 2])]
    label := none }

/-- A labels frame with one interval `[5, 5+3]`. -/
def labels4 : List LabelRow := [{ time := .fin 5, len := .fin 3, labelVal := "Peak" }]

/-- A four-row frame with an outlying value in channel `x`. -/
def df2 : DF :=
  { nrows := 4
    cols := [("Time", [.fin 0, .fin 1, .fin 2, .fin 3]),
             ("x", [.fin 0, .fin 100, .fin 4, .fin 6])]
    label := none }

/-- A twelve-sample column for exercising the FFT branch. -/
def xsW : List FVal := List.replicate 12 (.fin 0)

/-! ### Basic facts about float values -/

@[simp] theorem fvAdd_fin (a b : ℚ) : fvAdd (.fin a) (.fin b) = .fin (a + b) := rfl

@[simp] theorem fvNeg_fin (a : ℚ) : fvNeg (.fin a) = .fin (-a) := rfl

@[simp] theorem fvSub_fin (a b : ℚ) : fvSub (.fin a) (.fin b) = .fin (a - b) := by
  simp [fvSub, sub_eq_add_neg]

@[simp] theorem fvMul_fin (a b : ℚ) : fvMul (.fin a) (.fin b) = .fin (a * b) := rfl

@[simp] theorem fvLt_fin (a b : ℚ) : fvLt (.fin a) (.fin b) = decide (a < b) := rfl

@[simp] theorem fvLe_fin (a b : ℚ) : fvLe (.fin a) (.fin b) = decide (a ≤ b) := rfl

@[simp] theorem fillnaZero_fin (a : ℚ) : fillnaZero (.fin a) = .fin a := rfl

@[simp] theorem fillnaZero_nan : fillnaZero .nan = .fin 0 := rfl

@[simp] theorem fillnaZero_pinf : fillnaZero .pinf = .pinf := rfl

@[simp] theorem fillnaZero_ninf : fillnaZero .ninf = .ninf := rfl

theorem fvLt_irrefl (a : FVal) : fvLt a a = false := by
  cases a <;> simp [fvLt]

theorem fvDiv_fin_of_ne (a b : ℚ) (hb : b ≠ 0) :
    fvDiv (.fin a) (.fin b) = .fin (a / b) := by
  simp [fvDiv, hb]

/-- Dividing any float value by a (positive-signed) float zero never
yields a finite nonzero value: the result is `NaN` or `±inf`. -/
theorem fvDiv_zero_cases (x : FVal) :
    fvDiv x (.fin 0) = .nan ∨ fvDiv x (.fin 0) = .pinf ∨ fvDiv x (.fin 0) = .ninf := by
  cases x with
  | fin a =>
      by_cases h0 : a = 0
      · subst h0; simp [fvDiv]
      · by_cases hp : 0 < a
        · simp [fvDiv, h0, hp]
        · simp [fvDiv, h0, hp]
  | pinf => simp [fvDiv]
  | ninf => simp [fvDiv]
  | nan => simp [fvDiv]

/-! ### List helpers -/

theorem get?_zipWith_some {α β γ : Type} (f : α → β → γ) (as : List α) (bs : List β)
    (i : Nat) (a : α) (b : β) (ha : as.get? i = some a) (hb : bs.get? i = some b) :
    (List.zipWith f as bs).get? i = some (f a b) := by
  rw [List.get?_zipWith' f as bs i, ha, hb]
  rfl

theorem get?_map_some {α β : Type} (f : α → β) (l : List α) (i : Nat) (a : α)
    (ha : l.get? i = some a) : (l.map f).get? i = some (f a) := by
  rw [List.get?_map, ha]
  rfl

theorem diffL_length (xs : List FVal) : (diffL xs).length = xs.length := by
  cases xs with
  | nil => rfl
  | cons x t => simp [diffL]

theorem diffL_get?_zero (xs : List FVal) (hx : xs ≠ []) :
    (diffL xs).get? 0 = some .nan := by
  cases xs with
  | nil => exact absurd rfl hx
  | cons x t => rfl

theorem diffL_get?_succ (xs : List FVal) (j : Nat) (x y : FVal)
    (hx : xs.get? j = some x) (hy : xs.get? (j + 1) = some y) :
    (diffL xs).get? (j + 1) = some (fvSub y x) := by
  cases xs with
  | nil => simp at hx
  | cons h t =>
      show (List.zipWith fvSub t (h :: t)).get? j = some (fvSub y x)
      exact get?_zipWith_some fvSub t (h :: t) j y x hy hx

/-! ### DataFrame access lemmas -/

theorem replFst (c : String) (v : List FVal) (p : String × List FVal) :
    (if p.1 == c then (p.1, v) else p).1 = p.1 := by
  split <;> rfl

theorem mem_colNames_iff (df : DF) (c : String) :
    c ∈ colNames df ↔ ∃ p ∈ df.cols, p.1 = c := by
  unfold colNames
  constructor
  · intro h
    rcases List.mem_map.1 h with ⟨p, hp, he⟩
    exact ⟨p, hp, he⟩
  · rintro ⟨p, hp, he⟩
    exact List.mem_map.2 ⟨p, hp, he⟩

theorem find?_isSome_of_mem (df : DF) (c : String) (h : c ∈ colNames df) :
    (df.cols.find? (fun p => p.1 == c)).isSome := by
  rcases (mem_colNames_iff df c).1 h with ⟨p, hp, he⟩
  exact List.find?_isSome.2 ⟨p, hp, by simp [he]⟩

theorem find?_eq_none_of_not_mem (df : DF) (c : String) (h : c ∉ colNames df) :
    df.cols.find? (fun p => p.1 == c) = none := by
  cases hf : df.cols.find? (fun p => p.1 == c) with
  | none => rfl
  | some p =>
      have hm := List.mem_of_find?_eq_some hf
      have hp := List.find?_some hf
      have : p.1 = c := by simpa using hp
      exact absurd ((mem_colNames_iff df c).2 ⟨p, hm, this⟩) h

theorem getCol_setCol_self (df : DF) (c : String) (v : List FVal) :
    getCol (setCol df c v) c = v := by
  unfold setCol
  split
  case isTrue h =>
    unfold getCol
    simp only
    rw [List.find?_map]
    have hcomp : ((fun p : String × List FVal => p.1 == c) ∘
        (fun p => if p.1 == c then (p.1, v) else p)) =
        (fun p : String × List FVal => p.1 == c) := by
      funext p
      simp only [Function.comp_apply]
      rw [replFst]
    rw [hcomp]
    rcases Option.isSome_iff_exists.1 (find?_isSome_of_mem df c h) with ⟨q, hq⟩
    rw [hq]
    have hqc := List.find?_some hq
    have hqc2 : q.1 = c := by simpa using hqc
    simp [hqc2]
  case isFalse h =>
    unfold getCol
    simp only
    rw [List.find?_append, find?_eq_none_of_not_mem df c h]
    simp [List.find?]

theorem getCol_setCol_ne (df : DF) (c n : String) (v : List FVal) (hne : n ≠ c) :
    getCol (setCol df c v) n = getCol df n := by
  unfold setCol
  split
  case isTrue h =>
    unfold getCol
    simp only
    rw [List.find?_map]
    have hcomp : ((fun p : String × List FVal => p.1 == n) ∘
        (fun p => if p.1 == c then (p.1, v) else p)) =
        (fun p : String × List FVal => p.1 == n) := by
      funext p
      simp only [Function.comp_apply]
      rw [replFst]
    rw [hcomp]
    cases hf : df.cols.find? (fun p => p.1 == n) with
    | none => rfl
    | some q =>
        have hqn : q.1 = n := by simpa using List.find?_some hf
        have hqc : q.1 ≠ c := by rw [hqn]; exact hne
        simp [hqc]
  case isFalse h =>
    unfold getCol
    simp only
    rw [List.find?_append]
    cases hf : df.cols.find? (fun p => p.1 == n) with
    | none =>
        have hcn : (c == n) = false := by
          rw [beq_eq_false_iff_ne]
          exact fun he => hne he.symm
        simp [List.find?, hcn]
    | some q => rfl

theorem colNames_setCol_mem (df : DF) (c : String) (v : List FVal) (h : c ∈ colNames df) :
    colNames (setCol df c v) = colNames df := by
  unfold setCol
  rw [if_pos h]
  unfold colNames
  simp only [List.map_map]
  apply List.map_congr_left
  intro p _
  simp only [Function.comp_apply]
  exact replFst c v p

theorem colNames_setCol_new (df : DF) (c : String) (v : List FVal) (h : c ∉ colNames df) :
    colNames (setCol df c v) = colNames df ++ [c] := by
  unfold setCol
  rw [if_neg h]
  unfold colNames
  simp

theorem mem_colNames_setCol (df : DF) (c n : String) (v : List FVal) (h : n ∈ colNames df) :
    n ∈ colNames (setCol df c v) := by
  by_cases hc : c ∈ colNames df
  · rw [colNames_setCol_mem df c v hc]; exact h
  · rw [colNames_setCol_new df c v hc]; exact List.mem_append_left _ h

theorem nrows_setCol (df : DF) (c : String) (v : List FVal) :
    (setCol df c v).nrows = df.nrows := by
  unfold setCol
  split <;> rfl

theorem label_setCol (df : DF) (c : String) (v : List FVal) :
    (setCol df c v).label = df.label := by
  unfold setCol
  split <;> rfl

theorem WF_setCol (df : DF) (c : String) (v : List FVal) (hwf : df.WF)
    (hv : v.length = df.nrows) : (setCol df c v).WF := by
  obtain ⟨h1, h2⟩ := hwf
  unfold setCol
  split
  · refine ⟨?_, h2⟩
    intro p hp
    rcases List.mem_map.1 hp with ⟨q, hq, he⟩
    subst he
    split
    · exact hv
    · exact h1 q hq
  · refine ⟨?_, h2⟩
    intro p hp
    rcases List.mem_append.1 hp with h | h
    · exact h1 p h
    · rcases List.mem_singleton.1 h with rfl
      exact hv

theorem getCol_length (df : DF) (c : String) (hwf : df.WF) (h : c ∈ colNames df) :
    (getCol df c).length = df.nrows := by
  unfold getCol
  rcases Option.isSome_iff_exists.1 (find?_isSome_of_mem df c h) with ⟨q, hq⟩
  rw [hq]
  exact hwf.1 q (List.mem_of_find?_eq_some hq)

/-! ### Generic facts about the per-channel folds -/

theorem foldl_getCol_ne (step : DF → String → DF) (gen : String → List String)
    (hstep : ∀ r c n, n ∉ gen c → getCol (step r c) n = getCol r n) :
    ∀ (cs : List String) (r : DF) (n : String), n ∉ cs.flatMap gen →
      getCol (cs.foldl step r) n = getCol r n := by
  intro cs
  induction cs with
  | nil => intro r n _; rfl
  | cons c0 rest ih =>
      intro r n hn
      have h1 : n ∉ gen c0 := fun h => hn (List.mem_flatMap.2 ⟨c0, by simp, h⟩)
      have h2 : n ∉ rest.flatMap gen := fun h => by
        rcases List.mem_flatMap.1 h with ⟨c, hc, hm⟩
        exact hn (List.mem_flatMap.2 ⟨c, by simp [hc], hm⟩)
      show getCol (rest.foldl step (step r c0)) n = getCol r n
      rw [ih (step r c0) n h2, hstep r c0 n h1]

theorem foldl_nrows (step : DF → String → DF)
    (hstep : ∀ r c, (step r c).nrows = r.nrows) :
    ∀ (cs : List String) (r : DF), (cs.foldl step r).nrows = r.nrows := by
  intro cs
  induction cs with
  | nil => intro r; rfl
  | cons c0 rest ih =>
      intro r
      show (rest.foldl step (step r c0)).nrows = r.nrows
      rw [ih (step r c0), hstep r c0]

theorem foldl_label (step : DF → String → DF)
    (hstep : ∀ r c, (step r c).label = r.label) :
    ∀ (cs : List String) (r : DF), (cs.foldl step r).label = r.label := by
  intro cs
  induction cs with
  | nil => intro r; rfl
  | cons c0 rest ih =>
      intro r
      show (rest.foldl step (step r c0)).label = r.label
      rw [ih (step r c0), hstep r c0]

theorem foldl_colNames (step : DF → String → DF) (gen : String → List String)
    (hstep : ∀ r c, (∀ x ∈ gen c, x ∉ colNames r) → (gen c).Nodup →
      colNames (step r c) = colNames r ++ gen c) :
    ∀ (cs : List String) (r : DF), (cs.flatMap gen).Nodup →
      (∀ x ∈ cs.flatMap gen, x ∉ colNames r) →
      colNames (cs.foldl step r) = colNames r ++ cs.flatMap gen := by
  intro cs
  induction cs with
  | nil => intro r _ _; simp
  | cons c0 rest ih =>
      intro r hnd hdisj
      have hflat : (c0 :: rest).flatMap gen = gen c0 ++ rest.flatMap gen := by
        simp [List.flatMap_cons]
      rw [hflat] at hnd hdisj
      have hnd1 : (gen c0).Nodup := hnd.of_append_left
      have hnd2 : (rest.flatMap gen).Nodup := hnd.of_append_right
      have hdisj1 : ∀ x ∈ gen c0, x ∉ colNames r := fun x hx =>
        hdisj x (List.mem_append_left _ hx)
      have hstep1 := hstep r c0 hdisj1 hnd1
      show colNames (rest.foldl step (step r c0)) = colNames r ++ ((c0 :: rest).flatMap gen)
      rw [hflat, ih (step r c0) hnd2, hstep1, List.append_assoc]
      intro x hx
      rw [hstep1]
      intro hmem
      rcases List.mem_append.1 hmem with h | h
      · exact hdisj x (List.mem_append_right _ hx) h
      · exact (List.disjoint_of_nodup_append hnd).symm hx h

/-! ### Per-stage structural lemmas -/

theorem rollingStep_getCol_ne (K : Kernel) (w : Nat) (r : DF) (c n : String)
    (h : n ∉ [c ++ "_rolling_mean", c ++ "_rolling_std", c ++ "_rolling_min", c ++ "_rolling_max"]) :
    getCol (rollingStep K w r c) n = getCol r n := by
  have h1 : n ≠ c ++ "_rolling_mean" := by intro he; exact h (by simp [he])
  have h2 : n ≠ c ++ "_rolling_std" := by intro he; exact h (by simp [he])
  have h3 : n ≠ c ++ "_rolling_min" := by intro he; exact h (by simp [he])
  have h4 : n ≠ c ++ "_rolling_max" := by intro he; exact h (by simp [he])
  simp only [rollingStep]
  rw [getCol_setCol_ne _ _ _ _ h4, getCol_setCol_ne _ _ _ _ h3,
    getCol_setCol_ne _ _ _ _ h2, getCol_setCol_ne _ _ _ _ h1]

theorem rollingStep_nrows (K : Kernel) (w : Nat) (r : DF) (c : String) :
    (rollingStep K w r c).nrows = r.nrows := by
  simp only [rollingStep]
  rw [nrows_setCol, nrows_setCol, nrows_setCol, nrows_setCol]

theorem rollingStep_label (K : Kernel) (w : Nat) (r : DF) (c : String) :
    (rollingStep K w r c).label = r.label := by
  simp only [rollingStep]
  rw [label_setCol, label_setCol, label_setCol, label_setCol]

theorem derivStep_getCol_ne (r : DF) (c n : String)
    (h : n ∉ [c ++ "_deriv1", c ++ "_deriv2"]) :
    getCol (derivStep r c) n = getCol r n := by
  have h1 : n ≠ c ++ "_deriv1" := by intro he; exact h (by simp [he])
  have h2 : n ≠ c ++ "_deriv2" := by intro he; exact h (by simp [he])
  simp only [derivStep]
  rw [getCol_setCol_ne _ _ _ _ h2, getCol_setCol_ne _ _ _ _ h1,
    getCol_setCol_ne _ _ _ _ h2, getCol_setCol_ne _ _ _ _ h1]

theorem derivStep_nrows (r : DF) (c : String) : (derivStep r c).nrows = r.nrows := by
  simp only [derivStep]
  rw [nrows_setCol, nrows_setCol, nrows_setCol, nrows_setCol]

theorem derivStep_label (r : DF) (c : String) : (derivStep r c).label = r.label := by
  simp only [derivStep]
  rw [label_setCol, label_setCol, label_setCol, label_setCol]

theorem freqStep_getCol_ne (K : Kernel) (w n0 : Nat) (data r : DF) (c n : String)
    (h : n ∉ [c ++ "_dom_freq", c ++ "_dom_mag"]) :
    getCol (freqStep K w n0 data r c) n = getCol r n := by
  have h1 : n ≠ c ++ "_dom_freq" := by intro he; exact h (by simp [he])
  have h2 : n ≠ c ++ "_dom_mag" := by intro he; exact h (by simp [he])
  simp only [freqStep]
  rw [getCol_setCol_ne _ _ _ _ h2, getCol_setCol_ne _ _ _ _ h1]

theorem freqStep_nrows (K : Kernel) (w n0 : Nat) (data r : DF) (c : String) :
    (freqStep K w n0 data r c).nrows = r.nrows := by
  simp only [freqStep]
  rw [nrows_setCol, nrows_setCol]

theorem freqStep_label (K : Kernel) (w n0 : Nat) (data r : DF) (c : String) :
    (freqStep K w n0 data r c).label = r.label := by
  simp only [freqStep]
  rw [label_setCol, label_setCol]

/-! ### String-name disjointness -/

theorem append_ne_of_long (c s t : String) (h : t.length < s.length) : c ++ s ≠ t := by
  intro he
  have hl := congrArg String.length he
  rw [String.length_append] at hl
  omega

theorem self_ne_append (c s : String) (h : 0 < s.length) : c ≠ c ++ s := by
  intro he
  have hl := congrArg String.length he
  rw [String.length_append] at hl
  omega

theorem time_notin_rollingNames (cs : List String) : "Time" ∉ rollingNames cs := by
  intro h
  rcases List.mem_flatMap.1 h with ⟨c, _, hm⟩
  have h4 : ("Time" : String).length = 4 := by decide
  simp only [List.mem_cons, List.mem_singleton] at hm
  rcases hm with he | he | he | he | he
  · exact append_ne_of_long c "_rolling_mean" "Time" (by rw [h4]; decide) he.symm
  · exact append_ne_of_long c "_rolling_std" "Time" (by rw [h4]; decide) he.symm
  · exact append_ne_of_long c "_rolling_min" "Time" (by rw [h4]; decide) he.symm
  · exact append_ne_of_long c "_rolling_max" "Time" (by rw [h4]; decide) he.symm
  · exact absurd he (List.not_mem_nil _)

theorem time_notin_derivNames (cs : List String) : "Time" ∉ derivNames cs := by
  intro h
  rcases List.mem_flatMap.1 h with ⟨c, _, hm⟩
  have h4 : ("Time" : String).length = 4 := by decide
  simp only [List.mem_cons, List.mem_singleton] at hm
  rcases hm with he | he | he
  · exact append_ne_of_long c "_deriv1" "Time" (by rw [h4]; decide) he.symm
  · exact append_ne_of_long c "_deriv2" "Time" (by rw [h4]; decide) he.symm
  · exact absurd he (List.not_mem_nil _)

theorem time_notin_freqNames (cs : List String) : "Time" ∉ freqNames cs := by
  intro h
  rcases List.mem_flatMap.1 h with ⟨c, _, hm⟩
  have h4 : ("Time" : String).length = 4 := by decide
  simp only [List.mem_cons, List.mem_singleton] at hm
  rcases hm with he | he | he
  · exact append_ne_of_long c "_dom_freq" "Time" (by rw [h4]; decide) he.symm
  · exact append_ne_of_long c "_dom_mag" "Time" (by rw [h4]; decide) he.symm
  · exact absurd he (List.not_mem_nil _)

/-! ### Membership and length preservation -/

theorem foldl_mem_colNames (step : DF → String → DF)
    (hstep : ∀ r c n, n ∈ colNames r → n ∈ colNames (step r c)) :
    ∀ (cs : List String) (r : DF) (n : String), n ∈ colNames r →
      n ∈ colNames (cs.foldl step r) := by
  intro cs
  induction cs with
  | nil => intro r n h; exact h
  | cons c0 rest ih =>
      intro r n h
      exact ih (step r c0) n (hstep r c0 n h)

theorem rollingStep_mem_colNames (K : Kernel) (w : Nat) (r : DF) (c n : String)
    (h : n ∈ colNames r) : n ∈ colNames (rollingStep K w r c) := by
  simp only [rollingStep]
  exact mem_colNames_setCol _ _ _ _ (mem_colNames_setCol _ _ _ _
    (mem_colNames_setCol _ _ _ _ (mem_colNames_setCol _ _ _ _ h)))

theorem derivStep_mem_colNames (r : DF) (c n : String)
    (h : n ∈ colNames r) : n ∈ colNames (derivStep r c) := by
  simp only [derivStep]
  exact mem_colNames_setCol _ _ _ _ (mem_colNames_setCol _ _ _ _
    (mem_colNames_setCol _ _ _ _ (mem_colNames_setCol _ _ _ _ h)))

theorem freqStep_mem_colNames (K : Kernel) (w n0 : Nat) (data r : DF) (c n : String)
    (h : n ∈ colNames r) : n ∈ colNames (freqStep K w n0 data r c) := by
  simp only [freqStep]
  exact mem_colNames_setCol _ _ _ _ (mem_colNames_setCol _ _ _ _ h)

theorem ffillGo_length : ∀ (carry : Option FVal) (xs : List FVal),
    (ffillGo carry xs).length = xs.length := by
  intro carry xs
  induction xs generalizing carry with
  | nil => rfl
  | cons x t ih =>
      simp only [ffillGo]
      split
      · cases carry with
        | some c => simpa using ih (some c)
        | none => simpa using ih none
      · simpa using ih (some x)

theorem bfillCol_length (xs : List FVal) : (bfillCol xs).length = xs.length := by
  unfold bfillCol ffillCol
  rw [List.length_reverse, ffillGo_length, List.length_reverse]

theorem string_append_left_ne (c s t : String) (h : s ≠ t) : c ++ s ≠ c ++ t := by
  intro he
  apply h
  have hd := congrArg String.data he
  rw [String.data_append, String.data_append] at hd
  exact String.ext (List.append_cancel_left hd)

/-! ### Well-formedness of each stage -/

theorem fillPair_fst (p : String × List FVal) : (fillPair p).1 = p.1 := rfl

theorem clipPair_fst (p : String × List FVal) : (clipPair p).1 = p.1 := by
  unfold clipPair
  split <;> rfl

theorem normPair_fst (p : String × List FVal) : (normPair p).1 = p.1 := by
  unfold normPair
  split
  · rfl
  · by_cases h : fvLt (seriesMin p.2) (seriesMax p.2)
    · simp [h]
    · simp [h]

theorem ffillCol_length (xs : List FVal) : (ffillCol xs).length = xs.length := by
  unfold ffillCol
  rw [ffillGo_length]

theorem fillPair_len (p : String × List FVal) : (fillPair p).2.length = p.2.length := by
  unfold fillPair
  simp only
  rw [bfillCol_length, ffillCol_length]

theorem clipPair_len (p : String × List FVal) : (clipPair p).2.length = p.2.length := by
  unfold clipPair
  split
  · rfl
  · simp

theorem normPair_len (p : String × List FVal) : (normPair p).2.length = p.2.length := by
  unfold normPair
  split
  · rfl
  · by_cases h : fvLt (seriesMin p.2) (seriesMax p.2)
    · simp [h]
    · simp [h]

theorem clean_data_nrows (df : DF) : (clean_data df).nrows = df.nrows := rfl

theorem clean_data_label (df : DF) : (clean_data df).label = df.label := rfl

theorem clean_data_WF (df : DF) (hwf : df.WF) : (clean_data df).WF := by
  refine ⟨?_, hwf.2⟩
  intro p hp
  simp only [clean_data] at hp ⊢
  rcases List.mem_map.1 hp with ⟨q, hq, he⟩
  rcases List.mem_map.1 hq with ⟨p0, hp0, he0⟩
  subst he
  subst he0
  rw [clipPair_len, fillPair_len]
  exact hwf.1 p0 hp0

theorem normalize_data_nrows (df : DF) : (normalize_data df).nrows = df.nrows := rfl

theorem normalize_data_label (df : DF) : (normalize_data df).label = df.label := rfl

theorem normalize_data_WF (df : DF) (hwf : df.WF) : (normalize_data df).WF := by
  refine ⟨?_, hwf.2⟩
  intro p hp
  simp only [normalize_data] at hp
  rcases List.mem_map.1 hp with ⟨q, hq, he⟩
  subst he
  rw [normPair_len]
  exact hwf.1 q hq

theorem labelStep_length (timeCol : List FVal) (lab : List String) (r : LabelRow) :
    (labelStep timeCol lab r).length = min timeCol.length lab.length := by
  simp [labelStep]

theorem labelFold_length (timeCol : List FVal) :
    ∀ (rows : List LabelRow) (init : List String), init.length = timeCol.length →
      (rows.foldl (labelStep timeCol) init).length = init.length := by
  intro rows
  induction rows with
  | nil => intro init _; rfl
  | cons r rest ih =>
      intro init hinit
      show (rest.foldl (labelStep timeCol) (labelStep timeCol init r)).length = init.length
      rw [ih (labelStep timeCol init r) (by rw [labelStep_length, hinit]; omega),
        labelStep_length, hinit]
      omega

theorem add_label_column_nrows (df : DF) (labels : Option (List LabelRow)) :
    (add_label_column df labels).nrows = df.nrows := by
  cases labels with
  | none => rfl
  | some rows =>
      by_cases hemp : rows.isEmpty
      · simp [add_label_column, hemp]
      · simp [add_label_column, hemp]

theorem add_label_column_cols (df : DF) (labels : Option (List LabelRow)) :
    (add_label_column df labels).cols = df.cols := by
  cases labels with
  | none => rfl
  | some rows =>
      by_cases hemp : rows.isEmpty
      · simp [add_label_column, hemp]
      · simp [add_label_column, hemp]

theorem add_label_column_WF (df : DF) (labels : Option (List LabelRow))
    (hwf : df.WF) (ht : "Time" ∈ colNames df) : (add_label_column df labels).WF := by
  cases labels with
  | none => exact hwf
  | some rows =>
      by_cases hemp : rows.isEmpty
      · simp only [add_label_column, hemp, if_true]
        exact hwf
      · simp only [add_label_column, hemp, Bool.false_eq_true, if_false]
        refine ⟨hwf.1, ?_⟩
        show ((rows.foldl (labelStep (getCol df "Time"))
          (List.replicate df.nrows "NotReady")).length == df.nrows) = true
        rw [labelFold_length (getCol df "Time") rows
          (List.replicate df.nrows "NotReady")
          (by rw [List.length_replicate, getCol_length df "Time" hwf ht])]
        simp

theorem rollingStep_WF (K : Kernel) (w : Nat) (r : DF) (c : String)
    (hwf : r.WF) (hc : c ∈ colNames r) : (rollingStep K w r c).WF := by
  have hne1 : c ≠ c ++ "_rolling_mean" := self_ne_append c _ (by decide)
  have hne2 : c ≠ c ++ "_rolling_std" := self_ne_append c _ (by decide)
  have hne3 : c ≠ c ++ "_rolling_min" := self_ne_append c _ (by decide)
  simp only [rollingStep]
  have hx : (getCol r c).length = r.nrows := getCol_length r c hwf hc
  have w1 : (setCol r (c ++ "_rolling_mean")
      ((List.range (getCol r c).length).map
        (fun i => rollMean (windowAt (getCol r c) w i)))).WF :=
    WF_setCol _ _ _ hwf (by simp [hx])
  set r1 := setCol r (c ++ "_rolling_mean")
      ((List.range (getCol r c).length).map
        (fun i => rollMean (windowAt (getCol r c) w i))) with hr1
  have hg1 : getCol r1 c = getCol r c := getCol_setCol_ne r _ c _ hne1
  have hn1 : r1.nrows = r.nrows := nrows_setCol _ _ _
  have w2 : (setCol r1 (c ++ "_rolling_std")
      ((List.range (getCol r1 c).length).map
        (fun i => fillnaZero (rollStd K (windowAt (getCol r1 c) w i))))).WF :=
    WF_setCol _ _ _ w1 (by simp [hg1, hx, hn1])
  set r2 := setCol r1 (c ++ "_rolling_std")
      ((List.range (getCol r1 c).length).map
        (fun i => fillnaZero (rollStd K (windowAt (getCol r1 c) w i)))) with hr2
  have hg2 : getCol r2 c = getCol r c := by
    rw [hr2, getCol_setCol_ne r1 _ c _ hne2, hg1]
  have hn2 : r2.nrows = r.nrows := by rw [hr2, nrows_setCol, hn1]
  have w3 : (setCol r2 (c ++ "_rolling_min")
      ((List.range (getCol r2 c).length).map
        (fun i => rollMin (windowAt (getCol r2 c) w i)))).WF :=
    WF_setCol _ _ _ w2 (by simp [hg2, hx, hn2])
  set r3 := setCol r2 (c ++ "_rolling_min")
      ((List.range (getCol r2 c).length).map
        (fun i => rollMin (windowAt (getCol r2 c) w i))) with hr3
  have hg3 : getCol r3 c = getCol r c := by
    rw [hr3, getCol_setCol_ne r2 _ c _ hne3, hg2]
  have hn3 : r3.nrows = r.nrows := by rw [hr3, nrows_setCol, hn2]
  exact WF_setCol _ _ _ w3 (by simp [hg3, hx, hn3])

theorem derivStep_WF (r : DF) (c : String)
    (hwf : r.WF) (hc : c ∈ colNames r) (ht : "Time" ∈ colNames r) :
    (derivStep r c).WF := by
  have hne1 : "Time" ≠ c ++ "_deriv1" := fun he =>
    append_ne_of_long c "_deriv1" "Time" (by decide) he.symm
  have hne2 : "Time" ≠ c ++ "_deriv2" := fun he =>
    append_ne_of_long c "_deriv2" "Time" (by decide) he.symm
  have hne12 : c ++ "_deriv1" ≠ c ++ "_deriv2" :=
    string_append_left_ne c _ _ (by decide)
  simp only [derivStep]
  have hx : (getCol r c).length = r.nrows := getCol_length r c hwf hc
  have hts : (getCol r "Time").length = r.nrows := getCol_length r "Time" hwf ht
  have hd1 : (List.zipWith fvDiv (diffL (getCol r c)) (diffL (getCol r "Time"))).length
      = r.nrows := by
    rw [List.length_zipWith, diffL_length, diffL_length, hx, hts]
    omega
  have w1 := WF_setCol r (c ++ "_deriv1") _ hwf hd1
  set r1 := setCol r (c ++ "_deriv1")
    (List.zipWith fvDiv (diffL (getCol r c)) (diffL (getCol r "Time"))) with hr1
  have hn1 : r1.nrows = r.nrows := nrows_setCol _ _ _
  have hg1 : getCol r1 (c ++ "_deriv1")
      = List.zipWith fvDiv (diffL (getCol r c)) (diffL (getCol r "Time")) :=
    getCol_setCol_self _ _ _
  have hgt1 : getCol r1 "Time" = getCol r "Time" := getCol_setCol_ne _ _ _ _ hne1
  have hd2 : (List.zipWith fvDiv (diffL (getCol r1 (c ++ "_deriv1")))
      (diffL (getCol r1 "Time"))).length = r1.nrows := by
    rw [List.length_zipWith, diffL_length, diffL_length, hg1, hgt1, hd1, hts, hn1]
    omega
  have w2 := WF_setCol r1 (c ++ "_deriv2") _ w1 hd2
  set r2 := setCol r1 (c ++ "_deriv2")
    (List.zipWith fvDiv (diffL (getCol r1 (c ++ "_deriv1")))
      (diffL (getCol r1 "Time"))) with hr2
  have hn2 : r2.nrows = r1.nrows := nrows_setCol _ _ _
  have hg21 : getCol r2 (c ++ "_deriv1") = getCol r1 (c ++ "_deriv1") :=
    getCol_setCol_ne _ _ _ _ hne12
  have hd3 : ((getCol r2 (c ++ "_deriv1")).map fillnaZero).length = r2.nrows := by
    rw [List.length_map, hg21, hg1, hd1, hn2, hn1]
  have w3 := WF_setCol r2 (c ++ "_deriv1") _ w2 hd3
  set r3 := setCol r2 (c ++ "_deriv1") ((getCol r2 (c ++ "_deriv1")).map fillnaZero) with hr3
  have hn3 : r3.nrows = r2.nrows := nrows_setCol _ _ _
  have hg32 : getCol r3 (c ++ "_deriv2") = getCol r2 (c ++ "_deriv2") :=
    getCol_setCol_ne _ _ _ _ (fun he => hne12 he.symm)
  have hg22 : getCol r2 (c ++ "_deriv2") = List.zipWith fvDiv
      (diffL (getCol r1 (c ++ "_deriv1"))) (diffL (getCol r1 "Time")) :=
    getCol_setCol_self _ _ _
  refine WF_setCol r3 (c ++ "_deriv2") _ w3 ?_
  rw [List.length_map, hg32, hg22, hd2, hn3, hn2]

theorem freqStep_WF (K : Kernel) (w n0 : Nat) (data r : DF) (c : String)
    (hwf : r.WF) (hn : r.nrows = n0) : (freqStep K w n0 data r c).WF := by
  simp only [freqStep]
  have hlen : ∀ xs : List FVal, (freqPairs K xs w n0).length = n0 := by
    intro xs
    simp [freqPairs]
  have w1 := WF_setCol r (c ++ "_dom_freq")
    ((freqPairs K (getCol data c) w n0).map (fun p => FVal.fin p.1)) hwf
    (by rw [List.length_map, hlen, hn])
  refine WF_setCol _ (c ++ "_dom_mag") _ w1 ?_
  rw [List.length_map, hlen, nrows_setCol, hn]

/-! ### Fold-level well-formedness -/

theorem rolling_fold_WF (K : Kernel) (w : Nat) :
    ∀ (cs : List String) (r : DF), r.WF → (∀ c ∈ cs, c ∈ colNames r) →
      (cs.foldl (rollingStep K w) r).WF := by
  intro cs
  induction cs with
  | nil => intro r hwf _; exact hwf
  | cons c0 rest ih =>
      intro r hwf hmem
      show (rest.foldl (rollingStep K w) (rollingStep K w r c0)).WF
      refine ih (rollingStep K w r c0)
        (rollingStep_WF K w r c0 hwf (hmem c0 (by simp))) ?_
      intro c hc
      exact rollingStep_mem_colNames K w r c0 c (hmem c (by simp [hc]))

theorem deriv_fold_WF :
    ∀ (cs : List String) (r : DF), r.WF → (∀ c ∈ cs, c ∈ colNames r) →
      "Time" ∈ colNames r → (cs.foldl derivStep r).WF := by
  intro cs
  induction cs with
  | nil => intro r hwf _ _; exact hwf
  | cons c0 rest ih =>
      intro r hwf hmem ht
      show (rest.foldl derivStep (derivStep r c0)).WF
      refine ih (derivStep r c0)
        (derivStep_WF r c0 hwf (hmem c0 (by simp)) ht) ?_ ?_
      · intro c hc
        exact derivStep_mem_colNames r c0 c (hmem c (by simp [hc]))
      · exact derivStep_mem_colNames r c0 "Time" ht

theorem freq_fold_WF (K : Kernel) (w n0 : Nat) (data : DF) :
    ∀ (cs : List String) (r : DF), r.WF → r.nrows = n0 →
      (cs.foldl (freqStep K w n0 data) r).WF := by
  intro cs
  induction cs with
  | nil => intro r hwf _; exact hwf
  | cons c0 rest ih =>
      intro r hwf hn
      show (rest.foldl (freqStep K w n0 data) (freqStep K w n0 data r c0)).WF
      refine ih (freqStep K w n0 data r c0)
        (freqStep_WF K w n0 data r c0 hwf hn) ?_
      rw [freqStep_nrows, hn]

/-! ### The default channel set -/

theorem defaultColumns_subset (df : DF) (c : String) (h : c ∈ defaultColumns df) :
    c ∈ colNames df := by
  unfold defaultColumns at h
  have hmem := List.mem_of_mem_filter h
  have hprop := List.of_mem_filter h
  simp only [Bool.and_eq_true, Bool.not_eq_true'] at hprop
  unfold dfNames at hmem
  rcases List.mem_append.1 hmem with h1 | h1
  · exact h1
  · exfalso
    revert h1
    split
    · intro h1
      have : c = "label" := by simpa using h1
      rw [this] at hprop
      simp at hprop
    · intro h1
      simp at h1

/-! ### Column names of the cleaning stages -/

theorem colNames_clean_data (df : DF) : colNames (clean_data df) = colNames df := by
  unfold clean_data colNames
  simp only [List.map_map]
  apply List.map_congr_left
  intro p _
  simp only [Function.comp_apply]
  rw [clipPair_fst, fillPair_fst]

theorem colNames_normalize_data (df : DF) : colNames (normalize_data df) = colNames df := by
  unfold normalize_data colNames
  simp only [List.map_map]
  apply List.map_congr_left
  intro p _
  simp only [Function.comp_apply]
  rw [normPair_fst]

/-! ### Row preservation of each stage -/

theorem rolling_keeps (K : Kernel) (df : DF) (w : Nat) (columns : Option (List String))
    (hwf : df.WF) (hsub : ∀ c ∈ columns.getD (defaultColumns df), c ∈ colNames df) :
    keepsRows df (calculate_rolling_statistics K df w columns) := by
  constructor
  · exact foldl_nrows _ (rollingStep_nrows K w) _ df
  · exact rolling_fold_WF K w _ df hwf hsub

theorem deriv_keeps (df : DF) (columns : Option (List String))
    (hwf : df.WF) (hsub : ∀ c ∈ columns.getD (defaultColumns df), c ∈ colNames df)
    (ht : "Time" ∈ colNames df) :
    keepsRows df (calculate_derivatives df columns) := by
  constructor
  · exact foldl_nrows _ derivStep_nrows _ df
  · exact deriv_fold_WF _ df hwf hsub ht

theorem freq_keeps (K : Kernel) (df : DF) (columns : Option (List String)) (w : Nat)
    (hwf : df.WF) : keepsRows df (extract_frequency_features K df columns w) := by
  constructor
  · exact foldl_nrows _ (freqStep_nrows K w df.nrows df) _ df
  · exact freq_fold_WF K w df.nrows df _ df hwf rfl

theorem preprocess_keeps (df : DF) (labels : Option (List LabelRow))
    (b1 b2 b3 : Bool) (hwf : df.WF) (ht : "Time" ∈ colNames df) :
    keepsRows df (preprocess_data df labels b1 b2 b3) := by
  have h1 : (if b1 then clean_data df else df).WF ∧
      (if b1 then clean_data df else df).nrows = df.nrows ∧
      colNames (if b1 then clean_data df else df) = colNames df := by
    cases b1 with
    | true => exact ⟨clean_data_WF df hwf, rfl, colNames_clean_data df⟩
    | false => exact ⟨hwf, rfl, rfl⟩
  have h2 : (if b2 then normalize_data (if b1 then clean_data df else df)
        else (if b1 then clean_data df else df)).WF ∧
      (if b2 then normalize_data (if b1 then clean_data df else df)
        else (if b1 then clean_data df else df)).nrows = df.nrows ∧
      colNames (if b2 then normalize_data (if b1 then clean_data df else df)
        else (if b1 then clean_data df else df)) = colNames df := by
    cases b2 with
    | true =>
        exact ⟨normalize_data_WF _ h1.1, h1.2.1,
          (colNames_normalize_data _).trans h1.2.2⟩
    | false => exact ⟨h1.1, h1.2.1, h1.2.2⟩
  show keepsRows df (if (b3 && labels.isSome) then
      add_label_column (if b2 then normalize_data (if b1 then clean_data df else df)
        else (if b1 then clean_data df else df)) labels
    else (if b2 then normalize_data (if b1 then clean_data df else df)
        else (if b1 then clean_data df else df)))
  split
  · exact ⟨by rw [add_label_column_nrows]; exact h2.2.1,
      add_label_column_WF _ labels h2.1 (by rw [h2.2.2]; exact ht)⟩
  · exact ⟨h2.2.1, h2.1⟩

theorem feature_keeps (K : Kernel) (df : DF) (b1 b2 b3 : Bool) (w : Nat)
    (hwf : df.WF) (ht : "Time" ∈ colNames df) :
    keepsRows df (feature_engineering K df b1 b2 b3 w) := by
  have hsub0 : ∀ c ∈ defaultColumns df, c ∈ colNames df := defaultColumns_subset df
  have h1 : (if b1 then calculate_rolling_statistics K df w (some (defaultColumns df)) else df).WF ∧
      (if b1 then calculate_rolling_statistics K df w (some (defaultColumns df)) else df).nrows = df.nrows ∧
      (∀ n ∈ colNames df,
        n ∈ colNames (if b1 then calculate_rolling_statistics K df w (some (defaultColumns df)) else df)) := by
    cases b1 with
    | true =>
        refine ⟨(rolling_keeps K df w (some (defaultColumns df)) hwf hsub0).2,
          (rolling_keeps K df w (some (defaultColumns df)) hwf hsub0).1, ?_⟩
        intro n hn
        exact foldl_mem_colNames _ (fun r c m => rollingStep_mem_colNames K w r c m) _ df n hn
    | false => exact ⟨hwf, rfl, fun n hn => hn⟩
  have h2 : (if b2 then calculate_derivatives
        (if b1 then calculate_rolling_statistics K df w (some (defaultColumns df)) else df)
        (some (defaultColumns df))
      else (if b1 then calculate_rolling_statistics K df w (some (defaultColumns df)) else df)).WF ∧
      (if b2 then calculate_derivatives
        (if b1 then calculate_rolling_statistics K df w (some (defaultColumns df)) else df)
        (some (defaultColumns df))
      else (if b1 then calculate_rolling_statistics K df w (some (defaultColumns df)) else df)).nrows = df.nrows ∧
      (∀ n ∈ colNames df,
        n ∈ colNames (if b2 then calculate_derivatives
          (if b1 then calculate_rolling_statistics K df w (some (defaultColumns df)) else df)
          (some (defaultColumns df))
        else (if b1 then calculate_rolling_statistics K df w (some (defaultColumns df)) else df))) := by
    cases b2 with
    | true =>
        have hk := deriv_keeps _ (some (defaultColumns df)) h1.1
          (fun c hc => h1.2.2 c (hsub0 c hc)) (h1.2.2 "Time" ht)
        refine ⟨hk.2, hk.1.trans h1.2.1, ?_⟩
        intro n hn
        exact foldl_mem_colNames _ (fun r c m => derivStep_mem_colNames r c m) _ _ n (h1.2.2 n hn)
    | false => exact ⟨h1.1, h1.2.1, h1.2.2⟩
  show keepsRows df (if b3 then extract_frequency_features K
      (if b2 then calculate_derivatives
        (if b1 then calculate_rolling_statistics K df w (some (defaultColumns df)) else df)
        (some (defaultColumns df))
      else (if b1 then calculate_rolling_statistics K df w (some (defaultColumns df)) else df))
      (some (defaultColumns df)) (w * 5)
    else (if b2 then calculate_derivatives
        (if b1 then calculate_rolling_statistics K df w (some (defaultColumns df)) else df)
        (some (defaultColumns df))
      else (if b1 then calculate_rolling_statistics K df w (some (defaultColumns df)) else df)))
  cases b3 with
  | true =>
      have hk := freq_keeps K _ (some (defaultColumns df)) (w * 5) h2.1
      exact ⟨hk.1.trans h2.2.1, hk.2⟩
  | false => exact ⟨h2.2.1, h2.1⟩

/-- C1: every pipeline stage — `clean_data`, `normalize_data`,
`add_label_column`, `calculate_rolling_statistics`,
`calculate_derivatives`, `extract_frequency_features` and the two
orchestrators — returns a table with exactly as many rows as its
well-formed input. -/
theorem C1_row_count_preservation (K : Kernel) (df : DF)
    (labels : Option (List LabelRow)) (w : Nat) (b1 b2 b3 : Bool)
    (hwf : df.WF) (ht : "Time" ∈ colNames df) :
    keepsRows df (clean_data df) ∧
    keepsRows df (normalize_data df) ∧
    keepsRows df (add_label_column df labels) ∧
    keepsRows df (calculate_rolling_statistics K df w none) ∧
    keepsRows df (calculate_derivatives df none) ∧
    keepsRows df (extract_frequency_features K df none w) ∧
    keepsRows df (preprocess_data df labels b1 b2 b3) ∧
    keepsRows df (feature_engineering K df b1 b2 b3 w) := by
  refine ⟨⟨rfl, clean_data_WF df hwf⟩, ⟨rfl, normalize_data_WF df hwf⟩,
    ⟨add_label_column_nrows df labels, add_label_column_WF df labels hwf ht⟩,
    rolling_keeps K df w none hwf (defaultColumns_subset df), ?_, ?_, ?_, ?_⟩
  · exact deriv_keeps df none hwf (defaultColumns_subset df) ht
  · exact freq_keeps K df none w hwf
  · exact preprocess_keeps df labels b1 b2 b3 hwf ht
  · exact feature_keeps K df b1 b2 b3 w hwf ht

/-- Witness for C1 at a concrete two-row frame, label table, and all
stages enabled. -/
theorem C1_witness :
    df1.WF ∧ "Time" ∈ colNames df1 ∧
    (keepsRows df1 (clean_data df1) ∧
     keepsRows df1 (normalize_data df1) ∧
     keepsRows df1 (add_label_column df1 (some labels1)) ∧
     keepsRows df1 (calculate_rolling_statistics kernel0 df1 1 none) ∧
     keepsRows df1 (calculate_derivatives df1 none) ∧
     keepsRows df1 (extract_frequency_features kernel0 df1 none 1) ∧
     keepsRows df1 (preprocess_data df1 (some labels1) true true true) ∧
     keepsRows df1 (feature_engineering kernel0 df1 true true true 1)) :=
  ⟨by decide, by decide,
    C1_row_count_preservation kernel0 df1 (some labels1) 1 true true true
      (by decide) (by decide)⟩

/-! ### The `Time` column through each stage -/

theorem ffillGo_id (xs : List FVal) (hnn : ∀ x ∈ xs, x.isNan = false) :
    ∀ carry, ffillGo carry xs = xs := by
  induction xs with
  | nil => intro carry; rfl
  | cons x t ih =>
      intro carry
      have hx : x.isNan = false := hnn x (by simp)
      simp only [ffillGo, hx]
      rw [ih (fun y hy => hnn y (by simp [hy])) (some x)]
      simp

theorem nonNan_reverse (xs : List FVal) (hnn : ∀ x ∈ xs, x.isNan = false) :
    ∀ x ∈ xs.reverse, x.isNan = false := by
  intro x hx
  exact hnn x (List.mem_reverse.1 hx)

theorem bfillCol_id (xs : List FVal) (hnn : ∀ x ∈ xs, x.isNan = false) :
    bfillCol xs = xs := by
  unfold bfillCol ffillCol
  rw [ffillGo_id xs.reverse (nonNan_reverse xs hnn) none, List.reverse_reverse]

theorem find?_name_map (cols : List (String × List FVal))
    (F : String × List FVal → String × List FVal)
    (hF : ∀ p, (F p).1 = p.1) (c : String) :
    (cols.map F).find? (fun p => p.1 == c) =
      (cols.find? (fun p => p.1 == c)).map F := by
  rw [List.find?_map]
  have hc : ((fun p : String × List FVal => p.1 == c) ∘ F) =
      (fun p : String × List FVal => p.1 == c) := by
    funext p
    simp only [Function.comp_apply]
    rw [hF]
  rw [hc]

theorem getCol_map_pair (df : DF) (F : String × List FVal → String × List FVal)
    (hF : ∀ p, (F p).1 = p.1) (c : String) :
    getCol { df with cols := df.cols.map F } c =
      (match df.cols.find? (fun p => p.1 == c) with
       | some p => (F p).2
       | none => []) := by
  show (match (df.cols.map F).find? (fun p => p.1 == c) with
       | some p => p.2
       | none => []) =
      (match df.cols.find? (fun p => p.1 == c) with
       | some p => (F p).2
       | none => [])
  rw [find?_name_map df.cols F hF c]
  cases df.cols.find? (fun p => p.1 == c) <;> rfl

/-- What `clean_data` does to the column named `c`, in terms of the
input frame's first column of that name. -/
theorem getCol_clean_eq (df : DF) (c : String) :
    getCol (clean_data df) c =
      (match df.cols.find? (fun p => p.1 == c) with
       | some p => (clipPair (fillPair p)).2
       | none => []) := by
  have h1 : getCol (clean_data df) c =
      (match (df.cols.map fillPair).find? (fun p => p.1 == c) with
       | some p => (clipPair p).2
       | none => []) :=
    getCol_map_pair { df with cols := df.cols.map fillPair } clipPair clipPair_fst c
  rw [h1, find?_name_map df.cols fillPair fillPair_fst c]
  cases df.cols.find? (fun p => p.1 == c) <;> rfl

/-- What `normalize_data` does to the column named `c`. -/
theorem getCol_normalize_eq (df : DF) (c : String) :
    getCol (normalize_data df) c =
      (match df.cols.find? (fun p => p.1 == c) with
       | some p => (normPair p).2
       | none => []) :=
  getCol_map_pair df normPair normPair_fst c

theorem getCol_find? (df : DF) (c : String) :
    getCol df c = (match df.cols.find? (fun p => p.1 == c) with
      | some p => p.2
      | none => []) := rfl

theorem getCol_clean_time (df : DF)
    (hnn : ∀ x ∈ getCol df "Time", x.isNan = false) :
    getCol (clean_data df) "Time" = getCol df "Time" := by
  rw [getCol_clean_eq, getCol_find?]
  cases hf : df.cols.find? (fun p => p.1 == "Time") with
  | none => rfl
  | some p =>
      have hp1 : p.1 = "Time" := by simpa using List.find?_some hf
      have hval : getCol df "Time" = p.2 := by
        rw [getCol_find?, hf]
      simp only
      unfold clipPair
      rw [if_pos (by rw [fillPair_fst, hp1])]
      unfold fillPair
      simp only
      rw [ffillCol]
      rw [ffillGo_id p.2 (by rw [← hval]; exact hnn) none]
      exact bfillCol_id p.2 (by rw [← hval]; exact hnn)

theorem getCol_normalize_time (df : DF) :
    getCol (normalize_data df) "Time" = getCol df "Time" := by
  rw [getCol_normalize_eq, getCol_find?]
  cases hf : df.cols.find? (fun p => p.1 == "Time") with
  | none => rfl
  | some p =>
      have hp1 : p.1 = "Time" := by simpa using List.find?_some hf
      simp only
      unfold normPair
      rw [if_pos hp1]

theorem getCol_rolling_time (K : Kernel) (df : DF) (w : Nat) :
    getCol (calculate_rolling_statistics K df w none) "Time" = getCol df "Time" := by
  exact foldl_getCol_ne (rollingStep K w)
    (fun c => [c ++ "_rolling_mean", c ++ "_rolling_std", c ++ "_rolling_min", c ++ "_rolling_max"])
    (fun r c n hn => rollingStep_getCol_ne K w r c n hn)
    (defaultColumns df) df "Time" (time_notin_rollingNames (defaultColumns df))

theorem getCol_deriv_time (df : DF) :
    getCol (calculate_derivatives df none) "Time" = getCol df "Time" := by
  exact foldl_getCol_ne derivStep
    (fun c => [c ++ "_deriv1", c ++ "_deriv2"])
    (fun r c n hn => derivStep_getCol_ne r c n hn)
    (defaultColumns df) df "Time" (time_notin_derivNames (defaultColumns df))

theorem getCol_freq_time (K : Kernel) (df : DF) (w : Nat) :
    getCol (extract_frequency_features K df none w) "Time" = getCol df "Time" := by
  exact foldl_getCol_ne (freqStep K w df.nrows df)
    (fun c => [c ++ "_dom_freq", c ++ "_dom_mag"])
    (fun r c n hn => freqStep_getCol_ne K w df.nrows df r c n hn)
    (defaultColumns df) df "Time" (time_notin_freqNames (defaultColumns df))

/-- C9: the `Time` column of the output of every cleaning and feature
step equals, value for value, the `Time` column of the input (for
`clean_data` under the data-model assumption that the stored `Time`
values are not missing, since the global `fillna` would fill them). -/
theorem C9_time_never_modified (K : Kernel) (df : DF) (w wd : Nat)
    (hnn : ∀ x ∈ getCol df "Time", x.isNan = false) :
    getCol (clean_data df) "Time" = getCol df "Time" ∧
    getCol (normalize_data df) "Time" = getCol df "Time" ∧
    getCol (calculate_rolling_statistics K df w none) "Time" = getCol df "Time" ∧
    getCol (calculate_derivatives df none) "Time" = getCol df "Time" ∧
    getCol (extract_frequency_features K df none wd) "Time" = getCol df "Time" :=
  ⟨getCol_clean_time df hnn, getCol_normalize_time df,
    getCol_rolling_time K df w, getCol_deriv_time df, getCol_freq_time K df wd⟩

/-- Witness for C9 at a concrete frame. -/
theorem C9_witness :
    (∀ x ∈ getCol df1 "Time", x.isNan = false) ∧
    (getCol (clean_data df1) "Time" = getCol df1 "Time" ∧
     getCol (normalize_data df1) "Time" = getCol df1 "Time" ∧
     getCol (calculate_rolling_statistics kernel0 df1 2 none) "Time" = getCol df1 "Time" ∧
     getCol (calculate_derivatives df1 none) "Time" = getCol df1 "Time" ∧
     getCol (extract_frequency_features kernel0 df1 none 3) "Time" = getCol df1 "Time") :=
  ⟨by decide, C9_time_never_modified kernel0 df1 2 3 (by decide)⟩

/-! ### Column names written by each feature stage -/

theorem colNames_setCol_if (df : DF) (c : String) (v : List FVal) :
    colNames (setCol df c v) =
      if c ∈ colNames df then colNames df else colNames df ++ [c] := by
  by_cases h : c ∈ colNames df
  · rw [if_pos h, colNames_setCol_mem df c v h]
  · rw [if_neg h, colNames_setCol_new df c v h]

theorem rollingStep_colNames (K : Kernel) (w : Nat) (r : DF) (c : String)
    (hdisj : ∀ x ∈ [c ++ "_rolling_mean", c ++ "_rolling_std",
      c ++ "_rolling_min", c ++ "_rolling_max"], x ∉ colNames r)
    (hnd : ([c ++ "_rolling_mean", c ++ "_rolling_std",
      c ++ "_rolling_min", c ++ "_rolling_max"] : List String).Nodup) :
    colNames (rollingStep K w r c) = colNames r ++
      [c ++ "_rolling_mean", c ++ "_rolling_std", c ++ "_rolling_min", c ++ "_rolling_max"] := by
  have hm : c ++ "_rolling_mean" ∉ colNames r := hdisj _ (by simp)
  have hs : c ++ "_rolling_std" ∉ colNames r := hdisj _ (by simp)
  have hmi : c ++ "_rolling_min" ∉ colNames r := hdisj _ (by simp)
  have hma : c ++ "_rolling_max" ∉ colNames r := hdisj _ (by simp)
  have ne21 := string_append_left_ne c "_rolling_std" "_rolling_mean" (by decide)
  have ne31 := string_append_left_ne c "_rolling_min" "_rolling_mean" (by decide)
  have ne32 := string_append_left_ne c "_rolling_min" "_rolling_std" (by decide)
  have ne41 := string_append_left_ne c "_rolling_max" "_rolling_mean" (by decide)
  have ne42 := string_append_left_ne c "_rolling_max" "_rolling_std" (by decide)
  have ne43 := string_append_left_ne c "_rolling_max" "_rolling_min" (by decide)
  simp only [rollingStep, colNames_setCol_if]
  simp [hm, hs, hmi, hma, ne21, ne31, ne32, ne41, ne42, ne43]

theorem derivStep_colNames (r : DF) (c : String)
    (hdisj : ∀ x ∈ [c ++ "_deriv1", c ++ "_deriv2"], x ∉ colNames r)
    (hnd : ([c ++ "_deriv1", c ++ "_deriv2"] : List String).Nodup) :
    colNames (derivStep r c) = colNames r ++ [c ++ "_deriv1", c ++ "_deriv2"] := by
  have h1 : c ++ "_deriv1" ∉ colNames r := hdisj _ (by simp)
  have h2 : c ++ "_deriv2" ∉ colNames r := hdisj _ (by simp)
  have ne21 := string_append_left_ne c "_deriv2" "_deriv1" (by decide)
  have ne12 := string_append_left_ne c "_deriv1" "_deriv2" (by decide)
  simp only [derivStep, colNames_setCol_if]
  simp [h1, h2, ne21, ne12]

theorem freqStep_colNames (K : Kernel) (w n0 : Nat) (data r : DF) (c : String)
    (hdisj : ∀ x ∈ [c ++ "_dom_freq", c ++ "_dom_mag"], x ∉ colNames r)
    (hnd : ([c ++ "_dom_freq", c ++ "_dom_mag"] : List String).Nodup) :
    colNames (freqStep K w n0 data r c) = colNames r ++ [c ++ "_dom_freq", c ++ "_dom_mag"] := by
  have h1 : c ++ "_dom_freq" ∉ colNames r := hdisj _ (by simp)
  have h2 : c ++ "_dom_mag" ∉ colNames r := hdisj _ (by simp)
  have ne21 := string_append_left_ne c "_dom_mag" "_dom_freq" (by decide)
  simp only [freqStep, colNames_setCol_if]
  simp [h1, h2, ne21]

theorem rolling_stage_names (K : Kernel) (w : Nat) (r : DF) (cols : List String)
    (hnd : (rollingNames cols).Nodup) (hdisj : ∀ x ∈ rollingNames cols, x ∉ colNames r) :
    colNames (calculate_rolling_statistics K r w (some cols)) = colNames r ++ rollingNames cols :=
  foldl_colNames (rollingStep K w)
    (fun c => [c ++ "_rolling_mean", c ++ "_rolling_std", c ++ "_rolling_min", c ++ "_rolling_max"])
    (fun r0 c hd hn => rollingStep_colNames K w r0 c hd hn) cols r hnd hdisj

theorem deriv_stage_names (r : DF) (cols : List String)
    (hnd : (derivNames cols).Nodup) (hdisj : ∀ x ∈ derivNames cols, x ∉ colNames r) :
    colNames (calculate_derivatives r (some cols)) = colNames r ++ derivNames cols :=
  foldl_colNames derivStep
    (fun c => [c ++ "_deriv1", c ++ "_deriv2"])
    (fun r0 c hd hn => derivStep_colNames r0 c hd hn) cols r hnd hdisj

theorem freq_stage_names (K : Kernel) (w : Nat) (r : DF) (cols : List String)
    (hnd : (freqNames cols).Nodup) (hdisj : ∀ x ∈ freqNames cols, x ∉ colNames r) :
    colNames (extract_frequency_features K r (some cols) w) = colNames r ++ freqNames cols :=
  foldl_colNames (freqStep K w r.nrows r)
    (fun c => [c ++ "_dom_freq", c ++ "_dom_mag"])
    (fun r0 c hd hn => freqStep_colNames K w r.nrows r r0 c hd hn) cols r hnd hdisj

theorem rolling_stage_label (K : Kernel) (w : Nat) (r : DF) (columns : Option (List String)) :
    (calculate_rolling_statistics K r w columns).label = r.label :=
  foldl_label (rollingStep K w) (rollingStep_label K w) _ r

theorem deriv_stage_label (r : DF) (columns : Option (List String)) :
    (calculate_derivatives r columns).label = r.label :=
  foldl_label derivStep derivStep_label _ r

theorem freq_stage_label (K : Kernel) (w : Nat) (r : DF) (columns : Option (List String)) :
    (extract_frequency_features K r columns w).label = r.label :=
  foldl_label (freqStep K w r.nrows r) (freqStep_label K w r.nrows r) _ r

/-- C8: each enabled stage of `feature_engineering` works on the channel
set derived from the original input columns; under the naming
convention (no input column collides with a generated feature name) the
columns added are exactly the `{channel}_{suffix}` columns of the
original channels, and no feature of a feature column is produced. -/
theorem C8_original_channels (K : Kernel) (df : DF) (b1 b2 b3 : Bool) (w : Nat)
    (hnd : (colNames df ++ rollingNames (defaultColumns df) ++ derivNames (defaultColumns df)
      ++ freqNames (defaultColumns df)).Nodup) :
    colNames (feature_engineering K df b1 b2 b3 w) =
      colNames df ++ (if b1 then rollingNames (defaultColumns df) else []) ++
        (if b2 then derivNames (defaultColumns df) else []) ++
        (if b3 then freqNames (defaultColumns df) else []) ∧
    (feature_engineering K df b1 b2 b3 w).label = df.label := by
  have hndARD : ((colNames df ++ rollingNames (defaultColumns df))
      ++ derivNames (defaultColumns df)).Nodup :=
    hnd.sublist (List.sublist_append_left _ _)
  have hndAR : (colNames df ++ rollingNames (defaultColumns df)).Nodup :=
    hndARD.sublist (List.sublist_append_left _ _)
  have hdR : ∀ x ∈ rollingNames (defaultColumns df), x ∉ colNames df :=
    (List.disjoint_of_nodup_append hndAR).symm
  have hdD : ∀ x ∈ derivNames (defaultColumns df),
      x ∉ colNames df ++ rollingNames (defaultColumns df) :=
    (List.disjoint_of_nodup_append hndARD).symm
  have hdF : ∀ x ∈ freqNames (defaultColumns df),
      x ∉ (colNames df ++ rollingNames (defaultColumns df)) ++ derivNames (defaultColumns df) :=
    (List.disjoint_of_nodup_append hnd).symm
  have hndR : (rollingNames (defaultColumns df)).Nodup := hndAR.of_append_right
  have hndD : (derivNames (defaultColumns df)).Nodup := hndARD.of_append_right
  have hndF : (freqNames (defaultColumns df)).Nodup := hnd.of_append_right
  cases b1 with
  | true =>
      have e1 : colNames (calculate_rolling_statistics K df w (some (defaultColumns df)))
          = colNames df ++ rollingNames (defaultColumns df) :=
        rolling_stage_names K w df (defaultColumns df) hndR hdR
      cases b2 with
      | true =>
          have e2 : colNames (calculate_derivatives
              (calculate_rolling_statistics K df w (some (defaultColumns df)))
              (some (defaultColumns df)))
              = (colNames df ++ rollingNames (defaultColumns df)) ++ derivNames (defaultColumns df) := by
            rw [deriv_stage_names _ (defaultColumns df) hndD (by rw [e1]; exact hdD), e1]
          cases b3 with
          | true =>
              constructor
              · show colNames (extract_frequency_features K
                    (calculate_derivatives
                      (calculate_rolling_statistics K df w (some (defaultColumns df)))
                      (some (defaultColumns df)))
                    (some (defaultColumns df)) (w * 5)) = _
                rw [freq_stage_names K (w * 5) _ (defaultColumns df) hndF
                  (by rw [e2]; exact hdF), e2]
                simp [List.append_assoc]
              · show (extract_frequency_features K
                    (calculate_derivatives
                      (calculate_rolling_statistics K df w (some (defaultColumns df)))
                      (some (defaultColumns df)))
                    (some (defaultColumns df)) (w * 5)).label = df.label
                rw [freq_stage_label, deriv_stage_label, rolling_stage_label]
          | false =>
              constructor
              · show colNames (calculate_derivatives
                    (calculate_rolling_statistics K df w (some (defaultColumns df)))
                    (some (defaultColumns df))) = _
                rw [e2]
                simp [List.append_assoc]
              · show (calculate_derivatives
                    (calculate_rolling_statistics K df w (some (defaultColumns df)))
                    (some (defaultColumns df))).label = df.label
                rw [deriv_stage_label, rolling_stage_label]
      | false =>
          cases b3 with
          | true =>
              constructor
              · show colNames (extract_frequency_features K
                    (calculate_rolling_statistics K df w (some (defaultColumns df)))
                    (some (defaultColumns df)) (w * 5)) = _
                rw [freq_stage_names K (w * 5) _ (defaultColumns df) hndF
                  (by
                    rw [e1]
                    intro x hx hmem
                    exact hdF x hx (List.mem_append_left _ hmem)), e1]
                simp [List.append_assoc]
              · show (extract_frequency_features K
                    (calculate_rolling_statistics K df w (some (defaultColumns df)))
                    (some (defaultColumns df)) (w * 5)).label = df.label
                rw [freq_stage_label, rolling_stage_label]
          | false =>
              constructor
              · show colNames (calculate_rolling_statistics K df w (some (defaultColumns df))) = _
                rw [e1]
                simp
              · show (calculate_rolling_statistics K df w (some (defaultColumns df))).label = df.label
                rw [rolling_stage_label]
  | false =>
      have hdD0 : ∀ x ∈ derivNames (defaultColumns df), x ∉ colNames df :=
        fun x hx hm => hdD x hx (List.mem_append_left _ hm)
      cases b2 with
      | true =>
          have e2 : colNames (calculate_derivatives df (some (defaultColumns df)))
              = colNames df ++ derivNames (defaultColumns df) :=
            deriv_stage_names df (defaultColumns df) hndD hdD0
          cases b3 with
          | true =>
              constructor
              · show colNames (extract_frequency_features K
                    (calculate_derivatives df (some (defaultColumns df)))
                    (some (defaultColumns df)) (w * 5)) = _
                rw [freq_stage_names K (w * 5) _ (defaultColumns df) hndF
                  (by
                    rw [e2]
                    intro x hx hmem
                    rcases List.mem_append.1 hmem with h | h
                    · exact hdF x hx (List.mem_append_left _ (List.mem_append_left _ h))
                    · exact hdF x hx (List.mem_append_right _ h)), e2]
                simp [List.append_assoc]
              · show (extract_frequency_features K
                    (calculate_derivatives df (some (defaultColumns df)))
                    (some (defaultColumns df)) (w * 5)).label = df.label
                rw [freq_stage_label, deriv_stage_label]
          | false =>
              constructor
              · show colNames (calculate_derivatives df (some (defaultColumns df))) = _
                rw [e2]
                simp
              · show (calculate_derivatives df (some (defaultColumns df))).label = df.label
                rw [deriv_stage_label]
      | false =>
          cases b3 with
          | true =>
              constructor
              · show colNames (extract_frequency_features K df
                    (some (defaultColumns df)) (w * 5)) = _
                rw [freq_stage_names K (w * 5) df (defaultColumns df) hndF
                  (fun x hx hm => hdF x hx (List.mem_append_left _ (List.mem_append_left _ hm)))]
                simp
              · show (extract_frequency_features K df
                    (some (defaultColumns df)) (w * 5)).label = df.label
                rw [freq_stage_label]
          | false =>
              constructor
              · show colNames df = colNames df ++ ([] : List String)
                  ++ ([] : List String) ++ ([] : List String)
                simp
              · rfl

/-- Witness for C8 at a concrete frame with all stages enabled. -/
theorem C8_witness :
    (colNames df1 ++ rollingNames (defaultColumns df1) ++ derivNames (defaultColumns df1)
      ++ freqNames (defaultColumns df1)).Nodup ∧
    (colNames (feature_engineering kernel0 df1 true true true 1) =
      colNames df1 ++ (if true then rollingNames (defaultColumns df1) else []) ++
        (if true then derivNames (defaultColumns df1) else []) ++
        (if true then freqNames (defaultColumns df1) else []) ∧
     (feature_engineering kernel0 df1 true true true 1).label = df1.label) :=
  ⟨by decide, C8_original_channels kernel0 df1 true true true 1 (by decide)⟩

/-! ### The FFT stage, per channel -/

theorem argmaxQ_lt_length : ∀ (l : List ℚ), l ≠ [] → argmaxQ l < l.length := by
  intro l
  induction l with
  | nil => intro h; exact absurd rfl h
  | cons x xs ih =>
      intro _
      cases xs with
      | nil => simp [argmaxQ]
      | cons y t =>
          simp only [argmaxQ]
          split
          · simp
          · have := ih (by simp)
            simp only [List.length_cons] at this ⊢
            omega

theorem getD_argmaxQ : ∀ (l : List ℚ), l ≠ [] → l.getD (argmaxQ l) 0 = maxQ l := by
  intro l
  induction l with
  | nil => intro h; exact absurd rfl h
  | cons x xs ih =>
      intro _
      cases xs with
      | nil => simp [argmaxQ, maxQ]
      | cons y t =>
          simp only [argmaxQ, maxQ]
          split
          · rename_i h
            simp [max_eq_left h]
          · rename_i h
            push_neg at h
            have hih := ih (by simp)
            simp only [List.getD_cons_succ]
            rw [hih, max_eq_right (le_of_lt h)]

theorem rfftfreq_length (n : Nat) : (rfftfreq n).length = n / 2 + 1 := by
  unfold rfftfreq
  rw [List.length_map, List.length_range]

theorem freqStep_hit (K : Kernel) (w n0 : Nat) (data r : DF) (c : String) :
    getCol (freqStep K w n0 data r c) (c ++ "_dom_freq") =
      (freqPairs K (getCol data c) w n0).map (fun p => FVal.fin p.1) ∧
    getCol (freqStep K w n0 data r c) (c ++ "_dom_mag") =
      (freqPairs K (getCol data c) w n0).map (fun p => FVal.fin p.2) := by
  have hne : c ++ "_dom_freq" ≠ c ++ "_dom_mag" :=
    string_append_left_ne c "_dom_freq" "_dom_mag" (by decide)
  simp only [freqStep]
  constructor
  · rw [getCol_setCol_ne _ _ _ _ hne, getCol_setCol_self]
  · rw [getCol_setCol_self]

theorem freq_fold_hit (K : Kernel) (w n0 : Nat) (data : DF) :
    ∀ (cs : List String) (r : DF), (freqNames cs).Nodup → ∀ c ∈ cs,
      getCol (cs.foldl (freqStep K w n0 data) r) (c ++ "_dom_freq") =
        (freqPairs K (getCol data c) w n0).map (fun p => FVal.fin p.1) ∧
      getCol (cs.foldl (freqStep K w n0 data) r) (c ++ "_dom_mag") =
        (freqPairs K (getCol data c) w n0).map (fun p => FVal.fin p.2) := by
  intro cs
  induction cs with
  | nil => intro r _ c hc; exact absurd hc (List.not_mem_nil c)
  | cons c0 rest ih =>
      intro r hnd c hc
      have hflat : freqNames (c0 :: rest) =
          [c0 ++ "_dom_freq", c0 ++ "_dom_mag"] ++ freqNames rest := by
        simp [freqNames, List.flatMap_cons]
      rw [hflat] at hnd
      rcases List.mem_cons.1 hc with rfl | hc0
      · show getCol (rest.foldl (freqStep K w n0 data) (freqStep K w n0 data r c)) _ = _ ∧
            getCol (rest.foldl (freqStep K w n0 data) (freqStep K w n0 data r c)) _ = _
        have hdisj := List.disjoint_of_nodup_append hnd
        have hpre : ∀ s : String, s ∈ [c ++ "_dom_freq", c ++ "_dom_mag"] →
            getCol (rest.foldl (freqStep K w n0 data) (freqStep K w n0 data r c)) s =
            getCol (freqStep K w n0 data r c) s := by
          intro s hs
          exact foldl_getCol_ne (freqStep K w n0 data)
            (fun c1 => [c1 ++ "_dom_freq", c1 ++ "_dom_mag"])
            (fun r1 c1 n1 hn1 => freqStep_getCol_ne K w n0 data r1 c1 n1 hn1)
            rest (freqStep K w n0 data r c) s (hdisj hs)
        constructor
        · rw [hpre _ (by simp), (freqStep_hit K w n0 data r c).1]
        · rw [hpre _ (by simp), (freqStep_hit K w n0 data r c).2]
      · exact ih (freqStep K w n0 data r c0) hnd.of_append_right c hc0

/-- C7: for every row whose trailing window holds at most 10 samples,
`extract_frequency_features` reports dominant frequency and dominant
magnitude 0 (the `len(window) > 10` guard fails and the zero defaults
are appended). -/
theorem C7_short_window_zero (K : Kernel) (df : DF) (w : Nat) (c : String) (i : Nat)
    (hc : c ∈ defaultColumns df)
    (hnd : (freqNames (defaultColumns df)).Nodup)
    (hi : i < df.nrows)
    (hshort : (((getCol df c).take (i + 1)).drop (i + 1 - w)).length ≤ 10) :
    (getCol (extract_frequency_features K df none w) (c ++ "_dom_freq")).get? i
      = some (.fin 0) ∧
    (getCol (extract_frequency_features K df none w) (c ++ "_dom_mag")).get? i
      = some (.fin 0) := by
  have hh := freq_fold_hit K w df.nrows df (defaultColumns df) df hnd c hc
  have hp : (freqPairs K (getCol df c) w df.nrows).get? i
      = some (freqAt K (getCol df c) w i) := by
    unfold freqPairs
    exact get?_map_some _ _ i i (List.get?_range hi)
  have hA : freqAt K (getCol df c) w i = (0, 0) := by
    unfold freqAt
    rw [if_neg (by omega)]
  constructor
  · show ((getCol ((defaultColumns df).foldl (freqStep K w df.nrows df) df)
      (c ++ "_dom_freq")).get? i) = some (.fin 0)
    rw [hh.1, get?_map_some _ _ i _ hp, hA]
  · show ((getCol ((defaultColumns df).foldl (freqStep K w df.nrows df) df)
      (c ++ "_dom_mag")).get? i) = some (.fin 0)
    rw [hh.2, get?_map_some _ _ i _ hp, hA]

/-- Witness for C7 at a one-sample window. -/
theorem C7_witness :
    ("x" ∈ defaultColumns df1 ∧ (freqNames (defaultColumns df1)).Nodup ∧ 0 < df1.nrows ∧
      (((getCol df1 "x").take 1).drop (0 + 1 - 100)).length ≤ 10) ∧
    ((getCol (extract_frequency_features kernel0 df1 none 100) ("x" ++ "_dom_freq")).get? 0
      = some (.fin 0) ∧
     (getCol (extract_frequency_features kernel0 df1 none 100) ("x" ++ "_dom_mag")).get? 0
      = some (.fin 0)) :=
  ⟨⟨by decide, by decide, by decide, by decide⟩,
    C7_short_window_zero kernel0 df1 100 "x" 0 (by decide) (by decide) (by decide) (by decide)⟩

/-- C10: whenever a window has more than 10 samples, the argmax index
over the non-DC bins plus one is a valid index into the frequency-bin
array, so the `(0,0)` fallback branch is unreachable, and the reported
dominant magnitude is the maximum magnitude over all non-DC bins. -/
theorem C10_argmax_in_range (K : Kernel) (xs : List FVal) (w n i : Nat)
    (hin : i < n)
    (hlen : 10 < ((xs.take (i + 1)).drop (i + 1 - w)).length) :
    argmaxQ ((K.rfftMagF ((xs.take (i + 1)).drop (i + 1 - w))).drop 1) + 1 <
      (rfftfreq ((xs.take (i + 1)).drop (i + 1 - w)).length).length ∧
    (freqPairs K xs w n).get? i = some
      ((rfftfreq ((xs.take (i + 1)).drop (i + 1 - w)).length).getD
        (argmaxQ ((K.rfftMagF ((xs.take (i + 1)).drop (i + 1 - w))).drop 1) + 1) 0,
       maxQ ((K.rfftMagF ((xs.take (i + 1)).drop (i + 1 - w))).drop 1)) := by
  obtain ⟨W, hW⟩ : ∃ W, W = (xs.take (i + 1)).drop (i + 1 - w) := ⟨_, rfl⟩
  rw [← hW] at hlen ⊢
  have hmlen : (K.rfftMagF W).length = W.length / 2 + 1 := K.rfftMag_length W
  have hdlen : ((K.rfftMagF W).drop 1).length = W.length / 2 := by
    rw [List.length_drop, hmlen]
    omega
  have hpos : 0 < W.length / 2 := by omega
  have hdne : (K.rfftMagF W).drop 1 ≠ [] := by
    intro he
    rw [he] at hdlen
    simp at hdlen
    omega
  have harg : argmaxQ ((K.rfftMagF W).drop 1) < W.length / 2 := by
    have h := argmaxQ_lt_length _ hdne
    rw [hdlen] at h
    exact h
  have hidx : argmaxQ ((K.rfftMagF W).drop 1) + 1 < (rfftfreq W.length).length := by
    rw [rfftfreq_length]
    omega
  refine ⟨hidx, ?_⟩
  have hp : (freqPairs K xs w n).get? i = some (freqAt K xs w i) := by
    unfold freqPairs
    exact get?_map_some _ _ i i (List.get?_range hin)
  rw [hp]
  congr 1
  simp only [freqAt]
  rw [← hW]
  rw [if_pos hlen, if_pos hidx]
  congr 1
  cases hmag : K.rfftMagF W with
  | nil =>
      rw [hmag] at hmlen
      simp at hmlen
  | cons m0 mt =>
      have hmtlen : mt.length = W.length / 2 := by
        rw [hmag] at hdlen
        simpa using hdlen
      have hmtne : mt ≠ [] := by
        intro he
        rw [he] at hmtlen
        simp at hmtlen
        omega
      show (m0 :: mt).getD (argmaxQ mt + 1) 0 = maxQ mt
      rw [List.getD_cons_succ]
      exact getD_argmaxQ mt hmtne

/-- Witness for C10 at a twelve-sample window with the abstract FFT
kernel instantiated concretely. -/
theorem C10_witness :
    (11 < 12 ∧ 10 < ((xsW.take (11 + 1)).drop (11 + 1 - 100)).length) ∧
    (argmaxQ ((kernel0.rfftMagF ((xsW.take (11 + 1)).drop (11 + 1 - 100))).drop 1) + 1 <
      (rfftfreq ((xsW.take (11 + 1)).drop (11 + 1 - 100)).length).length ∧
     (freqPairs kernel0 xsW 100 12).get? 11 = some
      ((rfftfreq ((xsW.take (11 + 1)).drop (11 + 1 - 100)).length).getD
        (argmaxQ ((kernel0.rfftMagF ((xsW.take (11 + 1)).drop (11 + 1 - 100))).drop 1) + 1) 0,
       maxQ ((kernel0.rfftMagF ((xsW.take (11 + 1)).drop (11 + 1 - 100))).drop 1))) :=
  ⟨⟨by decide, by decide⟩, C10_argmax_in_range kernel0 xsW 100 12 11 (by decide) (by decide)⟩

/-! ### The derivative stage, per channel -/

theorem derivStep_hit (r : DF) (c : String) :
    getCol (derivStep r c) (c ++ "_deriv1") =
      (List.zipWith fvDiv (diffL (getCol r c)) (diffL (getCol r "Time"))).map fillnaZero ∧
    getCol (derivStep r c) (c ++ "_deriv2") =
      (List.zipWith fvDiv
        (diffL (List.zipWith fvDiv (diffL (getCol r c)) (diffL (getCol r "Time"))))
        (diffL (getCol r "Time"))).map fillnaZero := by
  have hne12 : c ++ "_deriv1" ≠ c ++ "_deriv2" :=
    string_append_left_ne c "_deriv1" "_deriv2" (by decide)
  have hT1 : "Time" ≠ c ++ "_deriv1" := fun he =>
    append_ne_of_long c "_deriv1" "Time" (by decide) he.symm
  simp only [derivStep]
  constructor
  · rw [getCol_setCol_ne _ _ _ _ hne12, getCol_setCol_self,
      getCol_setCol_ne _ _ _ _ hne12, getCol_setCol_self]
  · rw [getCol_setCol_self, getCol_setCol_ne _ _ _ _ (fun he => hne12 he.symm),
      getCol_setCol_self, getCol_setCol_self, getCol_setCol_ne _ _ _ _ hT1]

theorem deriv_fold_hit :
    ∀ (cs : List String) (r : DF), (derivNames cs).Nodup →
      "Time" ∉ derivNames cs → (∀ c0 ∈ cs, c0 ∉ derivNames cs) →
      ∀ c ∈ cs,
      getCol (cs.foldl derivStep r) (c ++ "_deriv1") =
        (List.zipWith fvDiv (diffL (getCol r c)) (diffL (getCol r "Time"))).map fillnaZero ∧
      getCol (cs.foldl derivStep r) (c ++ "_deriv2") =
        (List.zipWith fvDiv
          (diffL (List.zipWith fvDiv (diffL (getCol r c)) (diffL (getCol r "Time"))))
          (diffL (getCol r "Time"))).map fillnaZero := by
  intro cs
  induction cs with
  | nil => intro r _ _ _ c hc; exact absurd hc (List.not_mem_nil c)
  | cons c0 rest ih =>
      intro r hnd hT hfresh c hc
      have hflat : derivNames (c0 :: rest) =
          [c0 ++ "_deriv1", c0 ++ "_deriv2"] ++ derivNames rest := by
        simp [derivNames, List.flatMap_cons]
      rw [hflat] at hnd hT hfresh
      rcases List.mem_cons.1 hc with rfl | hc0
      · show getCol (rest.foldl derivStep (derivStep r c)) _ = _ ∧
            getCol (rest.foldl derivStep (derivStep r c)) _ = _
        have hdisj := List.disjoint_of_nodup_append hnd
        have hpre : ∀ s : String, s ∈ [c ++ "_deriv1", c ++ "_deriv2"] →
            getCol (rest.foldl derivStep (derivStep r c)) s = getCol (derivStep r c) s := by
          intro s hs
          exact foldl_getCol_ne derivStep
            (fun c1 => [c1 ++ "_deriv1", c1 ++ "_deriv2"])
            (fun r1 c1 n1 hn1 => derivStep_getCol_ne r1 c1 n1 hn1)
            rest (derivStep r c) s (hdisj hs)
        constructor
        · rw [hpre _ (by simp), (derivStep_hit r c).1]
        · rw [hpre _ (by simp), (derivStep_hit r c).2]
      · have hcne : c ∉ [c0 ++ "_deriv1", c0 ++ "_deriv2"] := by
          intro hm
          exact hfresh c (by simp [hc0]) (List.mem_append_left _ hm)
        have hTne : "Time" ∉ ([c0 ++ "_deriv1", c0 ++ "_deriv2"] : List String) := by
          intro hm
          exact hT (List.mem_append_left _ hm)
        have hgc : getCol (derivStep r c0) c = getCol r c :=
          derivStep_getCol_ne r c0 c hcne
        have hgt : getCol (derivStep r c0) "Time" = getCol r "Time" :=
          derivStep_getCol_ne r c0 "Time" hTne
        have hih := ih (derivStep r c0) hnd.of_append_right
          (fun hm => hT (List.mem_append_right _ hm))
          (fun c1 h1 hm => hfresh c1 (by simp [h1]) (List.mem_append_right _ hm))
          c hc0
        rw [hgc, hgt] at hih
        exact hih

theorem fvSub_nan_right (x : FVal) : fvSub x .nan = .nan := by
  cases x <;> rfl

theorem fvDiv_nan_left (y : FVal) : fvDiv .nan y = .nan := by
  cases y <;> rfl

theorem get?_of_lt {α : Type} (l : List α) (n : Nat) (h : n < l.length) :
    l.get? n = some (l.getD n (l.get ⟨n, h⟩)) := by
  rw [List.get?_eq_getElem?, List.getElem?_eq_getElem h]
  congr 1
  rw [List.getD_eq_getElem?_getD, List.getElem?_eq_getElem h]
  rfl

theorem length_pos_ne_nil {α : Type} (l : List α) (h : 0 < l.length) : l ≠ [] := by
  intro he
  rw [he] at h
  simp at h

/-- C6: `deriv1` is reported as 0 at row 0 and `deriv2` as 0 at rows 0
and 1 (the `diff` of pandas leaves `NaN` there and `fillna(0)` replaces
it); on the three-row example `Time = [0,1,2]`, `x = [0,10,30]` the
columns are `deriv1 = [0,10,20]` and `deriv2 = [0,0,10]`. -/
theorem C6_derivative_boundary (df : DF) (c : String)
    (hwf : df.WF) (ht : "Time" ∈ colNames df) (hc : c ∈ defaultColumns df)
    (hnd : (colNames df ++ derivNames (defaultColumns df)).Nodup)
    (hpos : 0 < df.nrows) :
    ((getCol (calculate_derivatives df none) (c ++ "_deriv1")).get? 0 = some (.fin 0) ∧
     (getCol (calculate_derivatives df none) (c ++ "_deriv2")).get? 0 = some (.fin 0) ∧
     (1 < df.nrows →
       (getCol (calculate_derivatives df none) (c ++ "_deriv2")).get? 1 = some (.fin 0))) ∧
    (getCol (calculate_derivatives df6 none) ("x" ++ "_deriv1")
        = [.fin 0, .fin 10, .fin 20] ∧
     getCol (calculate_derivatives df6 none) ("x" ++ "_deriv2")
        = [.fin 0, .fin 0, .fin 10]) := by
  have hndD : (derivNames (defaultColumns df)).Nodup := hnd.of_append_right
  have hTd : "Time" ∉ derivNames (defaultColumns df) := time_notin_derivNames _
  have hfresh : ∀ c0 ∈ defaultColumns df, c0 ∉ derivNames (defaultColumns df) :=
    fun c0 h0 hm =>
      (List.disjoint_of_nodup_append hnd) (defaultColumns_subset df c0 h0) hm
  have hh := deriv_fold_hit (defaultColumns df) df hndD hTd hfresh c hc
  have hxs : (getCol df c).length = df.nrows :=
    getCol_length df c hwf (defaultColumns_subset df c hc)
  have hts : (getCol df "Time").length = df.nrows := getCol_length df "Time" hwf ht
  have hxne : getCol df c ≠ [] := length_pos_ne_nil _ (by omega)
  have htne : getCol df "Time" ≠ [] := length_pos_ne_nil _ (by omega)
  have hd1z : (List.zipWith fvDiv (diffL (getCol df c)) (diffL (getCol df "Time"))).get? 0
      = some .nan := by
    have := get?_zipWith_some fvDiv (diffL (getCol df c)) (diffL (getCol df "Time")) 0
      .nan .nan (diffL_get?_zero _ hxne) (diffL_get?_zero _ htne)
    simpa using this
  have hd1len : (List.zipWith fvDiv (diffL (getCol df c)) (diffL (getCol df "Time"))).length
      = df.nrows := by
    rw [List.length_zipWith, diffL_length, diffL_length, hxs, hts]
    omega
  have hd1ne : List.zipWith fvDiv (diffL (getCol df c)) (diffL (getCol df "Time")) ≠ [] :=
    length_pos_ne_nil _ (by omega)
  have hd2z : (List.zipWith fvDiv
      (diffL (List.zipWith fvDiv (diffL (getCol df c)) (diffL (getCol df "Time"))))
      (diffL (getCol df "Time"))).get? 0 = some .nan := by
    have := get?_zipWith_some fvDiv _ (diffL (getCol df "Time")) 0
      .nan .nan (diffL_get?_zero _ hd1ne) (diffL_get?_zero _ htne)
    simpa using this
  refine ⟨⟨?_, ?_, ?_⟩, ?_, ?_⟩
  case refine_4 =>
    have hh6 := deriv_fold_hit (defaultColumns df6) df6 (by decide) (by decide)
      (by decide) "x" (by decide)
    have hgx : getCol df6 "x" = [FVal.fin 0, FVal.fin 10, FVal.fin 30] := by decide
    have hgt : getCol df6 "Time" = [FVal.fin 0, FVal.fin 1, FVal.fin 2] := by decide
    show getCol ((defaultColumns df6).foldl derivStep df6) ("x" ++ "_deriv1") = _
    rw [hh6.1, hgx, hgt]
    norm_num [diffL, fvDiv, fvSub, fvAdd, fvNeg, fillnaZero, FVal.isNan]
  case refine_5 =>
    have hh6 := deriv_fold_hit (defaultColumns df6) df6 (by decide) (by decide)
      (by decide) "x" (by decide)
    have hgx : getCol df6 "x" = [FVal.fin 0, FVal.fin 10, FVal.fin 30] := by decide
    have hgt : getCol df6 "Time" = [FVal.fin 0, FVal.fin 1, FVal.fin 2] := by decide
    show getCol ((defaultColumns df6).foldl derivStep df6) ("x" ++ "_deriv2") = _
    rw [hh6.2, hgx, hgt]
    norm_num [diffL, fvDiv, fvSub, fvAdd, fvNeg, fillnaZero, FVal.isNan]
  · show ((getCol ((defaultColumns df).foldl derivStep df) (c ++ "_deriv1")).get? 0)
      = some (.fin 0)
    rw [hh.1, get?_map_some fillnaZero _ 0 _ hd1z]
    rfl
  · show ((getCol ((defaultColumns df).foldl derivStep df) (c ++ "_deriv2")).get? 0)
      = some (.fin 0)
    rw [hh.2, get?_map_some fillnaZero _ 0 _ hd2z]
    rfl
  · intro h2
    show ((getCol ((defaultColumns df).foldl derivStep df) (c ++ "_deriv2")).get? 1)
      = some (.fin 0)
    have hb1 : 1 < (List.zipWith fvDiv (diffL (getCol df c))
        (diffL (getCol df "Time"))).length := by omega
    have hbt : 1 < (getCol df "Time").length := by omega
    have hv1 := get?_of_lt _ 1 hb1
    have ht0 := get?_of_lt (getCol df "Time") 0 (by omega)
    have ht1 := get?_of_lt (getCol df "Time") 1 hbt
    have hdd1 := diffL_get?_succ _ 0 _ _ hd1z hv1
    have hddt := diffL_get?_succ (getCol df "Time") 0 _ _ ht0 ht1
    have hd2one := get?_zipWith_some fvDiv _ (diffL (getCol df "Time")) 1 _ _ hdd1 hddt
    rw [hh.2, get?_map_some fillnaZero _ 1 _ hd2one, fvSub_nan_right, fvDiv_nan_left]
    rfl

/-- Witness for C6 at the concrete three-row frame. -/
theorem C6_witness :
    (df6.WF ∧ "Time" ∈ colNames df6 ∧ "x" ∈ defaultColumns df6 ∧
      (colNames df6 ++ derivNames (defaultColumns df6)).Nodup ∧ 0 < df6.nrows) ∧
    (((getCol (calculate_derivatives df6 none) ("x" ++ "_deriv1")).get? 0 = some (.fin 0) ∧
      (getCol (calculate_derivatives df6 none) ("x" ++ "_deriv2")).get? 0 = some (.fin 0) ∧
      (1 < df6.nrows →
        (getCol (calculate_derivatives df6 none) ("x" ++ "_deriv2")).get? 1 = some (.fin 0))) ∧
     (getCol (calculate_derivatives df6 none) ("x" ++ "_deriv1")
        = [.fin 0, .fin 10, .fin 20] ∧
      getCol (calculate_derivatives df6 none) ("x" ++ "_deriv2")
        = [.fin 0, .fin 0, .fin 10])) :=
  ⟨⟨by decide, by decide, by decide, by decide, by decide⟩,
    C6_derivative_boundary df6 "x" (by decide) (by decide) (by decide) (by decide) (by decide)⟩

theorem get?_exists_of_lt {α : Type} (l : List α) (n : Nat) (h : n < l.length) :
    ∃ v, l.get? n = some v := by
  rw [List.get?_eq_getElem?]
  exact ⟨l[n], List.getElem?_eq_getElem h⟩

/-- C5 counterexample: at a duplicated timestamp with a changing value,
`calculate_derivatives` reports `deriv1 = inf`, not 0 — `fillna(0)` only
replaces `NaN`, it does not guard the division by a zero time delta. -/
theorem C5_derivative_counterexample :
    (getCol (calculate_derivatives df5c none) ("x" ++ "_deriv1")).get? 1 = some FVal.pinf ∧
    FVal.pinf ≠ FVal.fin 0 := by
  constructor
  · have hh5 := deriv_fold_hit (defaultColumns df5c) df5c (by decide) (by decide)
      (by decide) "x" (by decide)
    have hgx : getCol df5c "x" = [FVal.fin 0, FVal.fin 1] := by decide
    have hgt : getCol df5c "Time" = [FVal.fin 0, FVal.fin 0] := by decide
    show (getCol ((defaultColumns df5c).foldl derivStep df5c) ("x" ++ "_deriv1")).get? 1 = _
    rw [hh5.1, hgx, hgt]
    norm_num [diffL, fvDiv, fvSub, fvAdd, fvNeg, fillnaZero, FVal.isNan, List.get?]
  · decide

/-- C5, amended: at a row with a duplicated timestamp, `deriv1` is 0
exactly when the channel value is also unchanged (the `0/0 = NaN` is
filled with 0); when the value changes the reported derivative is
`+inf`/`-inf` (untouched by `fillna(0)`); `deriv2` at such a row is 0,
`+inf` or `-inf` — never `NaN` and never any other finite value. -/
theorem C5_duplicate_timestamp_amended (df : DF) (c : String) (j : Nat) (t a b : ℚ)
    (hc : c ∈ defaultColumns df)
    (hnd : (colNames df ++ derivNames (defaultColumns df)).Nodup)
    (htj : (getCol df "Time").get? j = some (.fin t))
    (htj1 : (getCol df "Time").get? (j + 1) = some (.fin t))
    (haj : (getCol df c).get? j = some (.fin a))
    (hbj : (getCol df c).get? (j + 1) = some (.fin b)) :
    ((a = b →
        (getCol (calculate_derivatives df none) (c ++ "_deriv1")).get? (j + 1) = some (.fin 0)) ∧
     (a < b →
        (getCol (calculate_derivatives df none) (c ++ "_deriv1")).get? (j + 1) = some .pinf) ∧
     (b < a →
        (getCol (calculate_derivatives df none) (c ++ "_deriv1")).get? (j + 1) = some .ninf)) ∧
    ((getCol (calculate_derivatives df none) (c ++ "_deriv2")).get? (j + 1) = some (.fin 0) ∨
     (getCol (calculate_derivatives df none) (c ++ "_deriv2")).get? (j + 1) = some .pinf ∨
     (getCol (calculate_derivatives df none) (c ++ "_deriv2")).get? (j + 1) = some .ninf) := by
  have hndD := hnd.of_append_right
  have hTd := time_notin_derivNames (defaultColumns df)
  have hfresh : ∀ c0 ∈ defaultColumns df, c0 ∉ derivNames (defaultColumns df) :=
    fun c0 h0 hm =>
      (List.disjoint_of_nodup_append hnd) (defaultColumns_subset df c0 h0) hm
  have hh := deriv_fold_hit (defaultColumns df) df hndD hTd hfresh c hc
  have hdx : (diffL (getCol df c)).get? (j + 1) = some (.fin (b - a)) := by
    rw [diffL_get?_succ _ j _ _ haj hbj, fvSub_fin]
  have hdt0 : (diffL (getCol df "Time")).get? (j + 1) = some (.fin 0) := by
    rw [diffL_get?_succ _ j _ _ htj htj1, fvSub_fin, sub_self]
  have hd1v : (List.zipWith fvDiv (diffL (getCol df c)) (diffL (getCol df "Time"))).get? (j + 1)
      = some (fvDiv (.fin (b - a)) (.fin 0)) :=
    get?_zipWith_some fvDiv _ _ (j + 1) _ _ hdx hdt0
  have hd1col : (getCol (calculate_derivatives df none) (c ++ "_deriv1")).get? (j + 1)
      = some (fillnaZero (fvDiv (.fin (b - a)) (.fin 0))) := by
    show ((getCol ((defaultColumns df).foldl derivStep df) (c ++ "_deriv1")).get? (j + 1)) = _
    rw [hh.1]
    exact get?_map_some fillnaZero _ (j + 1) _ hd1v
  refine ⟨⟨?_, ?_, ?_⟩, ?_⟩
  · intro hab
    rw [hd1col]
    subst hab
    simp [fvDiv, fillnaZero, FVal.isNan]
  · intro hab
    rw [hd1col]
    have h2 : 0 < b - a := sub_pos.2 hab
    simp [fvDiv, fillnaZero, FVal.isNan, h2, h2.ne']
  · intro hab
    rw [hd1col]
    have h2 : b - a < 0 := sub_neg.2 hab
    simp [fvDiv, fillnaZero, FVal.isNan, h2.ne, not_lt.2 h2.le]
  · have hlx : j + 1 < (getCol df c).length := by
      by_contra hcon
      push_neg at hcon
      rw [List.get?_eq_none.2 hcon] at hbj
      simp at hbj
    have hlt : j + 1 < (getCol df "Time").length := by
      by_contra hcon
      push_neg at hcon
      rw [List.get?_eq_none.2 hcon] at htj1
      simp at htj1
    have hlen1 : j < (List.zipWith fvDiv (diffL (getCol df c))
        (diffL (getCol df "Time"))).length := by
      rw [List.length_zipWith, diffL_length, diffL_length]
      omega
    obtain ⟨s, hs⟩ := get?_exists_of_lt _ j hlen1
    have hdd1 : (diffL (List.zipWith fvDiv (diffL (getCol df c))
        (diffL (getCol df "Time")))).get? (j + 1)
        = some (fvSub (fvDiv (.fin (b - a)) (.fin 0)) s) :=
      diffL_get?_succ _ j _ _ hs hd1v
    have hd2v : (List.zipWith fvDiv
        (diffL (List.zipWith fvDiv (diffL (getCol df c)) (diffL (getCol df "Time"))))
        (diffL (getCol df "Time"))).get? (j + 1)
        = some (fvDiv (fvSub (fvDiv (.fin (b - a)) (.fin 0)) s) (.fin 0)) :=
      get?_zipWith_some fvDiv _ _ (j + 1) _ _ hdd1 hdt0
    have hcol2 : (getCol (calculate_derivatives df none) (c ++ "_deriv2")).get? (j + 1)
        = some (fillnaZero (fvDiv (fvSub (fvDiv (.fin (b - a)) (.fin 0)) s) (.fin 0))) := by
      show ((getCol ((defaultColumns df).foldl derivStep df) (c ++ "_deriv2")).get? (j + 1)) = _
      rw [hh.2]
      exact get?_map_some fillnaZero _ (j + 1) _ hd2v
    rcases fvDiv_zero_cases (fvSub (fvDiv (.fin (b - a)) (.fin 0)) s) with hcase | hcase | hcase
    · left
      rw [hcol2, hcase]
      rfl
    · right
      left
      rw [hcol2, hcase]
      rfl
    · right
      right
      rw [hcol2, hcase]
      rfl

/-- Witness for the amended C5 at the concrete duplicated-timestamp
frame. -/
theorem C5_witness :
    ("x" ∈ defaultColumns df5c ∧
      (colNames df5c ++ derivNames (defaultColumns df5c)).Nodup ∧
      (getCol df5c "Time").get? 0 = some (.fin 0) ∧
      (getCol df5c "Time").get? 1 = some (.fin 0) ∧
      (getCol df5c "x").get? 0 = some (.fin 0) ∧
      (getCol df5c "x").get? 1 = some (.fin 1)) ∧
    (((0 : ℚ) = 1 →
        (getCol (calculate_derivatives df5c none) ("x" ++ "_deriv1")).get? 1 = some (.fin 0)) ∧
     ((0 : ℚ) < 1 →
        (getCol (calculate_derivatives df5c none) ("x" ++ "_deriv1")).get? 1 = some .pinf) ∧
     ((1 : ℚ) < 0 →
        (getCol (calculate_derivatives df5c none) ("x" ++ "_deriv1")).get? 1 = some .ninf)) ∧
    ((getCol (calculate_derivatives df5c none) ("x" ++ "_deriv2")).get? 1 = some (.fin 0) ∨
     (getCol (calculate_derivatives df5c none) ("x" ++ "_deriv2")).get? 1 = some .pinf ∨
     (getCol (calculate_derivatives df5c none) ("x" ++ "_deriv2")).get? 1 = some .ninf) :=
  ⟨⟨by decide, by decide, by decide, by decide, by decide, by decide⟩,
    (C5_duplicate_timestamp_amended df5c "x" 0 0 0 1 (by decide) (by decide)
      (by decide) (by decide) (by decide) (by decide)).1,
    (C5_duplicate_timestamp_amended df5c "x" 0 0 0 1 (by decide) (by decide)
      (by decide) (by decide) (by decide) (by decide)).2⟩

/-! ### The label fold -/

theorem getLast?_cons_some {α : Type} (a : α) (l : List α) (r : α)
    (h : l.getLast? = some r) : (a :: l).getLast? = some r := by
  cases l with
  | nil => simp at h
  | cons b t =>
      rw [List.getLast?_cons_cons]
      exact h

theorem getLast?_none_eq_nil {α : Type} (l : List α) (h : l.getLast? = none) : l = [] := by
  cases l with
  | nil => rfl
  | cons b t =>
      exfalso
      rw [List.getLast?_eq_getLast (b :: t) (by simp)] at h
      simp at h

theorem labelFold_get? (timeCol : List FVal) :
    ∀ (rows : List LabelRow) (init : List String) (j : Nat) (t : FVal),
      timeCol.get? j = some t → j < init.length → init.length = timeCol.length →
      (rows.foldl (labelStep timeCol) init).get? j =
        (match (rows.filter
            (fun r => fvLe r.time t && fvLe t (fvAdd r.time r.len))).getLast? with
         | some r => some r.labelVal
         | none => init.get? j) := by
  intro rows
  induction rows with
  | nil =>
      intro init j t htj hj hlen
      simp
  | cons r rest ih =>
      intro init j t htj hj hlen
      have hstep_len : (labelStep timeCol init r).length = init.length := by
        rw [labelStep_length, hlen, Nat.min_self]
      obtain ⟨v, hv⟩ := get?_exists_of_lt init j hj
      have hinit2 : (labelStep timeCol init r).get? j =
          some (if fvLe r.time t && fvLe t (fvAdd r.time r.len) then r.labelVal else v) := by
        unfold labelStep
        exact get?_zipWith_some _ timeCol init j t v htj hv
      rw [List.foldl_cons]
      rw [ih (labelStep timeCol init r) j t htj (by rw [hstep_len]; exact hj)
        (by rw [hstep_len]; exact hlen)]
      rw [List.filter_cons]
      by_cases hP : (fvLe r.time t && fvLe t (fvAdd r.time r.len)) = true
      · rw [if_pos hP]
        cases hrest : (rest.filter
            (fun r0 => fvLe r0.time t && fvLe t (fvAdd r0.time r0.len))).getLast? with
        | some r2 =>
            rw [getLast?_cons_some r _ r2 hrest]
        | none =>
            have hnil := getLast?_none_eq_nil _ hrest
            rw [hnil]
            rw [hinit2, if_pos hP]
            rfl
      · rw [if_neg hP]
        cases hrest : (rest.filter
            (fun r0 => fvLe r0.time t && fvLe t (fvAdd r0.time r0.len))).getLast? with
        | some r2 => rfl
        | none =>
            rw [hinit2, if_neg hP, hv]

/-- C4 counterexample: for a supplied but empty label table the code
returns the data unchanged — no `label` column is added, although the
claim promises a `label` column (defaulting to `"NotReady"`) for every
supplied label table including an empty one. -/
theorem C4_empty_labels_counterexample :
    (add_label_column df4c (some [])).label = none ∧ df4c.nrows = 1 := by
  constructor
  · rfl
  · rfl

/-- C4, amended: for a *nonempty* supplied label table,
`add_label_column` adds a `label` column in which every row carries the
label of the last interval in iteration order whose inclusive range
`[start_time, start_time + duration]` contains the row's `Time`, and
`"NotReady"` if no interval contains it; for an absent or empty label
table the frame is returned unchanged, with no `label` column added. -/
theorem C4_labeler_amended (df : DF) (rows : List LabelRow) (j : Nat) (t : FVal)
    (hwf : df.WF) (ht : "Time" ∈ colNames df)
    (hrows : rows ≠ [])
    (htj : (getCol df "Time").get? j = some t) :
    ((add_label_column df (some rows)).cols = df.cols ∧
     (add_label_column df (some rows)).nrows = df.nrows) ∧
    ((add_label_column df (some rows)).label.getD []).get? j =
      some (match (rows.filter
          (fun r => fvLe r.time t && fvLe t (fvAdd r.time r.len))).getLast? with
        | some r => r.labelVal
        | none => "NotReady") ∧
    add_label_column df none = df ∧
    add_label_column df (some []) = df := by
  have hemp : rows.isEmpty = false := by
    cases rows with
    | nil => exact absurd rfl hrows
    | cons a l => rfl
  have htlen : (getCol df "Time").length = df.nrows := getCol_length df "Time" hwf ht
  have hj : j < df.nrows := by
    by_contra hcon
    push_neg at hcon
    rw [List.get?_eq_none.2 (by omega)] at htj
    simp at htj
  refine ⟨⟨?_, ?_⟩, ?_, rfl, rfl⟩
  · simp [add_label_column, hemp]
  · simp [add_label_column, hemp]
  · have hlab : (add_label_column df (some rows)).label =
        some (rows.foldl (labelStep (getCol df "Time"))
          (List.replicate df.nrows "NotReady")) := by
      simp [add_label_column, hemp]
    rw [hlab]
    simp only [Option.getD_some]
    rw [labelFold_get? (getCol df "Time") rows (List.replicate df.nrows "NotReady") j t htj
      (by rw [List.length_replicate]; exact hj)
      (by rw [List.length_replicate, htlen])]
    have hrep : (List.replicate df.nrows "NotReady").get? j = some "NotReady" := by
      rw [List.get?_eq_getElem?]
      rw [List.getElem?_replicate]
      rw [if_pos hj]
    cases hrest : (rows.filter
        (fun r => fvLe r.time t && fvLe t (fvAdd r.time r.len))).getLast? with
    | some r2 => rfl
    | none => rw [hrep]

/-- Witness for the amended C4 at a concrete frame and one-interval
label table. -/
theorem C4_witness :
    (df4.WF ∧ "Time" ∈ colNames df4 ∧ labels4 ≠ [] ∧
      (getCol df4 "Time").get? 0 = some (.fin 8)) ∧
    (((add_label_column df4 (some labels4)).cols = df4.cols ∧
      (add_label_column df4 (some labels4)).nrows = df4.nrows) ∧
     ((add_label_column df4 (some labels4)).label.getD []).get? 0 =
       some (match (labels4.filter
           (fun r => fvLe r.time (.fin 8) && fvLe (.fin 8) (fvAdd r.time r.len))).getLast? with
         | some r => r.labelVal
         | none => "NotReady") ∧
     add_label_column df4 none = df4 ∧
     add_label_column df4 (some []) = df4) :=
  ⟨⟨by decide, by decide, by decide, by decide⟩,
    C4_labeler_amended df4 labels4 0 (.fin 8) (by decide) (by decide) (by decide) (by decide)⟩

/-! ### Series minimum and maximum on all-finite columns -/

theorem all_fin_exists (xs : List FVal) (hfin : ∀ x ∈ xs, x.isFin = true) :
    ∃ l : List ℚ, xs = l.map FVal.fin := by
  induction xs with
  | nil => exact ⟨[], rfl⟩
  | cons x t ih =>
      obtain ⟨l, hl⟩ := ih (fun y hy => hfin y (by simp [hy]))
      cases x with
      | fin q => exact ⟨q :: l, by rw [List.map_cons, hl]⟩
      | pinf => exact absurd (hfin .pinf (by simp)) (by simp [FVal.isFin])
      | ninf => exact absurd (hfin .ninf (by simp)) (by simp [FVal.isFin])
      | nan => exact absurd (hfin .nan (by simp)) (by simp [FVal.isFin])

theorem nonNan_map_fin (l : List ℚ) : nonNan (l.map FVal.fin) = l.map FVal.fin := by
  unfold nonNan
  rw [List.filter_eq_self]
  intro a ha
  rcases List.mem_map.1 ha with ⟨q, _, rfl⟩
  rfl

theorem fvMin2_fin (a b : ℚ) : fvMin2 (.fin a) (.fin b) = .fin (min a b) := by
  by_cases h : b < a
  · simp [fvMin2, fvLt, h, min_eq_right h.le]
  · simp [fvMin2, fvLt, h, min_eq_left (not_lt.1 h)]

theorem fvMax2_fin (a b : ℚ) : fvMax2 (.fin a) (.fin b) = .fin (max a b) := by
  by_cases h : a < b
  · simp [fvMax2, fvLt, h, max_eq_right h.le]
  · simp [fvMax2, fvLt, h, max_eq_left (not_lt.1 h)]

theorem foldl_fvMin2_fin (h : ℚ) (t : List ℚ) :
    (t.map FVal.fin).foldl fvMin2 (.fin h) = .fin (t.foldl min h) := by
  induction t generalizing h with
  | nil => rfl
  | cons a l ih =>
      rw [List.map_cons, List.foldl_cons, List.foldl_cons, fvMin2_fin, ih]

theorem foldl_fvMax2_fin (h : ℚ) (t : List ℚ) :
    (t.map FVal.fin).foldl fvMax2 (.fin h) = .fin (t.foldl max h) := by
  induction t generalizing h with
  | nil => rfl
  | cons a l ih =>
      rw [List.map_cons, List.foldl_cons, List.foldl_cons, fvMax2_fin, ih]

theorem seriesMin_map_fin (h : ℚ) (t : List ℚ) :
    seriesMin ((h :: t).map FVal.fin) = .fin (t.foldl min h) := by
  unfold seriesMin
  rw [nonNan_map_fin]
  exact foldl_fvMin2_fin h t

theorem seriesMax_map_fin (h : ℚ) (t : List ℚ) :
    seriesMax ((h :: t).map FVal.fin) = .fin (t.foldl max h) := by
  unfold seriesMax
  rw [nonNan_map_fin]
  exact foldl_fvMax2_fin h t

theorem foldl_min_le (t : List ℚ) : ∀ h : ℚ,
    t.foldl min h ≤ h ∧ ∀ x ∈ t, t.foldl min h ≤ x := by
  induction t with
  | nil => intro h; exact ⟨le_refl h, by simp⟩
  | cons a l ih =>
      intro h
      have hih := ih (min h a)
      constructor
      · exact le_trans hih.1 (min_le_left h a)
      · intro x hx
        rcases List.mem_cons.1 hx with rfl | hx2
        · exact le_trans hih.1 (min_le_right h x)
        · exact hih.2 x hx2

theorem foldl_max_ge (t : List ℚ) : ∀ h : ℚ,
    h ≤ t.foldl max h ∧ ∀ x ∈ t, x ≤ t.foldl max h := by
  induction t with
  | nil => intro h; exact ⟨le_refl h, by simp⟩
  | cons a l ih =>
      intro h
      have hih := ih (max h a)
      constructor
      · exact le_trans (le_max_left h a) hih.1
      · intro x hx
        rcases List.mem_cons.1 hx with rfl | hx2
        · exact le_trans (le_max_right h x) hih.1
        · exact hih.2 x hx2

theorem foldl_min_map (f : ℚ → ℚ) (hf : Monotone f) (t : List ℚ) : ∀ h : ℚ,
    (t.map f).foldl min (f h) = f (t.foldl min h) := by
  induction t with
  | nil => intro h; rfl
  | cons a l ih =>
      intro h
      rw [List.map_cons, List.foldl_cons, List.foldl_cons, ← hf.map_min, ih]

theorem foldl_max_map (f : ℚ → ℚ) (hf : Monotone f) (t : List ℚ) : ∀ h : ℚ,
    (t.map f).foldl max (f h) = f (t.foldl max h) := by
  induction t with
  | nil => intro h; rfl
  | cons a l ih =>
      intro h
      rw [List.map_cons, List.foldl_cons, List.foldl_cons, ← hf.map_max, ih]

theorem find?_name_of_nodup (cols : List (String × List FVal)) (c : String) (xs : List FVal)
    (hnd : (cols.map Prod.fst).Nodup) (hmem : (c, xs) ∈ cols) :
    cols.find? (fun p => p.1 == c) = some (c, xs) := by
  induction cols with
  | nil => simp at hmem
  | cons p ps ih =>
      rcases List.mem_cons.1 hmem with rfl | hmem2
      · simp [List.find?]
      · have hp1 : p.1 ≠ c := by
          intro he
          have hcm : c ∈ ps.map Prod.fst := List.mem_map.2 ⟨(c, xs), hmem2, rfl⟩
          rw [← he] at hcm
          exact (List.nodup_cons.1 (by simpa using hnd)).1 hcm
        rw [List.find?_cons_of_neg _ (by simp [hp1])]
        exact ih (List.nodup_cons.1 (by simpa using hnd)).2 hmem2

/-- C3: `normalize_data` min-max scales every non-`Time` column whose
maximum exceeds its minimum, making its minimum 0 and its maximum 1,
and leaves a column with `max = min` (constant column) unchanged. -/
theorem C3_minmax_normalization (df : DF) (c : String) (xs : List FVal)
    (hmem : (c, xs) ∈ df.cols) (hc : c ≠ "Time")
    (hnodup : (colNames df).Nodup)
    (hfin : ∀ x ∈ xs, x.isFin = true) :
    (fvLt (seriesMin xs) (seriesMax xs) = true →
      getCol (normalize_data df) c =
        xs.map (fun x => fvDiv (fvSub x (seriesMin xs))
          (fvSub (seriesMax xs) (seriesMin xs))) ∧
      seriesMin (getCol (normalize_data df) c) = .fin 0 ∧
      seriesMax (getCol (normalize_data df) c) = .fin 1) ∧
    (seriesMax xs = seriesMin xs → getCol (normalize_data df) c = xs) := by
  have hfind := find?_name_of_nodup df.cols c xs hnodup hmem
  have hget : getCol (normalize_data df) c = (normPair (c, xs)).2 := by
    rw [getCol_normalize_eq, hfind]
  constructor
  · intro hlt
    obtain ⟨l, rfl⟩ := all_fin_exists xs hfin
    cases l with
    | nil =>
        exfalso
        simp [seriesMin, seriesMax, nonNan, fvLt] at hlt
    | cons q0 qt =>
        have hmn := seriesMin_map_fin q0 qt
        have hmx := seriesMax_map_fin q0 qt
        have hltq : qt.foldl min q0 < qt.foldl max q0 := by
          rw [hmn, hmx] at hlt
          simpa using hlt
        have hdpos : 0 < qt.foldl max q0 - qt.foldl min q0 := sub_pos.2 hltq
        have hd : qt.foldl max q0 - qt.foldl min q0 ≠ 0 := ne_of_gt hdpos
        have hval : (normPair (c, (q0 :: qt).map FVal.fin)).2 =
            ((q0 :: qt).map FVal.fin).map
              (fun x => fvDiv (fvSub x (seriesMin ((q0 :: qt).map FVal.fin)))
                (fvSub (seriesMax ((q0 :: qt).map FVal.fin))
                  (seriesMin ((q0 :: qt).map FVal.fin)))) := by
          simp only [normPair]
          rw [if_neg hc, if_pos hlt]
        have hpt : ∀ a : ℚ,
            fvDiv (fvSub (.fin a) (seriesMin ((q0 :: qt).map FVal.fin)))
              (fvSub (seriesMax ((q0 :: qt).map FVal.fin))
                (seriesMin ((q0 :: qt).map FVal.fin)))
            = .fin ((a - qt.foldl min q0) / (qt.foldl max q0 - qt.foldl min q0)) := by
          intro a
          rw [hmn, hmx, fvSub_fin, fvSub_fin, fvDiv_fin_of_ne _ _ hd]
        have hmap : (((q0 :: qt).map FVal.fin).map
            (fun x => fvDiv (fvSub x (seriesMin ((q0 :: qt).map FVal.fin)))
              (fvSub (seriesMax ((q0 :: qt).map FVal.fin))
                (seriesMin ((q0 :: qt).map FVal.fin)))))
            = ((q0 :: qt).map
                (fun a => (a - qt.foldl min q0) / (qt.foldl max q0 - qt.foldl min q0))).map
              FVal.fin := by
          rw [List.map_map, List.map_map]
          apply List.map_congr_left
          intro a _
          simp only [Function.comp_apply]
          exact hpt a
        have hmono : Monotone
            (fun a => (a - qt.foldl min q0) / (qt.foldl max q0 - qt.foldl min q0)) :=
          fun a b hab => (div_le_div_right hdpos).2 (sub_le_sub_right hab _)
        refine ⟨by rw [hget, hval], ?_, ?_⟩
        · rw [hget, hval, hmap, List.map_cons, seriesMin_map_fin,
            foldl_min_map _ hmono]
          congr 1
          rw [sub_self, zero_div]
        · rw [hget, hval, hmap, List.map_cons, seriesMax_map_fin,
            foldl_max_map _ hmono]
          congr 1
          rw [div_self hd]
  · intro heq
    have hflt : fvLt (seriesMin xs) (seriesMax xs) = false := by
      rw [heq]
      exact fvLt_irrefl _
    rw [hget]
    simp only [normPair]
    rw [if_neg hc, if_neg (by rw [hflt]; simp)]

/-- Witness for C3 at a concrete two-row channel. -/
theorem C3_witness :
    (("x", [FVal.fin 5, FVal.fin 9]) ∈ df1.cols ∧ "x" ≠ "Time" ∧
      (colNames df1).Nodup ∧ (∀ x ∈ [FVal.fin 5, FVal.fin 9], x.isFin = true)) ∧
    ((fvLt (seriesMin [FVal.fin 5, FVal.fin 9]) (seriesMax [FVal.fin 5, FVal.fin 9]) = true →
      getCol (normalize_data df1) "x" =
        [FVal.fin 5, FVal.fin 9].map (fun x =>
          fvDiv (fvSub x (seriesMin [FVal.fin 5, FVal.fin 9]))
            (fvSub (seriesMax [FVal.fin 5, FVal.fin 9])
              (seriesMin [FVal.fin 5, FVal.fin 9]))) ∧
      seriesMin (getCol (normalize_data df1) "x") = .fin 0 ∧
      seriesMax (getCol (normalize_data df1) "x") = .fin 1) ∧
     (seriesMax [FVal.fin 5, FVal.fin 9] = seriesMin [FVal.fin 5, FVal.fin 9] →
      getCol (normalize_data df1) "x" = [FVal.fin 5, FVal.fin 9])) :=
  ⟨⟨by decide, by decide, by decide, by decide⟩,
    C3_minmax_normalization df1 "x" [FVal.fin 5, FVal.fin 9]
      (by decide) (by decide) (by decide) (by decide)⟩

/-! ### The quantile on all-finite columns -/

theorem orderedInsert_map_fin (a : ℚ) (l : List ℚ) :
    List.orderedInsert fvLeB (.fin a) (l.map FVal.fin) =
      (List.orderedInsert (· ≤ ·) a l).map FVal.fin := by
  induction l with
  | nil => rfl
  | cons b t ih =>
      by_cases hab : a ≤ b
      · have h1 : fvLeB (.fin a) (.fin b) := by
          show fvLe (.fin a) (.fin b) = true
          simp [fvLe, hab]
        rw [List.map_cons, List.orderedInsert, List.orderedInsert, if_pos h1, if_pos hab]
        rfl
      · have h1 : ¬ fvLeB (.fin a) (.fin b) := by
          show ¬ fvLe (.fin a) (.fin b) = true
          simp [fvLe, hab]
        rw [List.map_cons, List.orderedInsert, List.orderedInsert, if_neg h1, if_neg hab,
          ih, List.map_cons]

theorem insertionSort_map_fin (l : List ℚ) :
    List.insertionSort fvLeB (l.map FVal.fin) =
      (List.insertionSort (· ≤ ·) l).map FVal.fin := by
  induction l with
  | nil => rfl
  | cons a t ih =>
      rw [List.map_cons, List.insertionSort, List.insertionSort, ih,
        orderedInsert_map_fin]

theorem sortF_map_fin (l : List ℚ) :
    sortF (l.map FVal.fin) = (List.insertionSort (· ≤ ·) l).map FVal.fin :=
  insertionSort_map_fin l

theorem getD_map_fin (s : List ℚ) (i : Nat) (h : i < s.length) :
    (s.map FVal.fin).getD i .nan = .fin (s.getD i 0) := by
  rw [List.getD_eq_getElem?_getD, List.getElem?_map, List.getElem?_eq_getElem h,
    List.getD_eq_getElem?_getD, List.getElem?_eq_getElem h]
  rfl

theorem interpQ_eq (v : List ℚ) (q : ℚ) :
    interpQ v q =
      v.getD (Int.toNat ⌊q * ((v.length : ℚ) - 1)⌋) 0 +
        (q * ((v.length : ℚ) - 1) - ((Int.toNat ⌊q * ((v.length : ℚ) - 1)⌋ : ℕ) : ℚ)) *
          (v.getD (min (Int.toNat ⌊q * ((v.length : ℚ) - 1)⌋ + 1) (v.length - 1)) 0 -
            v.getD (Int.toNat ⌊q * ((v.length : ℚ) - 1)⌋) 0) := rfl

theorem sorted_getD_mono (v : List ℚ) (hs : List.Sorted (· ≤ ·) v)
    (i j : Nat) (hij : i ≤ j) (hj : j < v.length) :
    v.getD i 0 ≤ v.getD j 0 := by
  have hi : i < v.length := lt_of_le_of_lt hij hj
  rw [List.getD_eq_getElem?_getD, List.getElem?_eq_getElem hi, Option.getD_some,
    List.getD_eq_getElem?_getD, List.getElem?_eq_getElem hj, Option.getD_some]
  rcases eq_or_lt_of_le hij with rfl | hlt
  · exact le_refl _
  · exact List.pairwise_iff_getElem.1 hs i j hi hj hlt

theorem toNat_floor_le_rat (p : ℚ) (hp : 0 ≤ p) :
    ((Int.toNat ⌊p⌋ : ℕ) : ℚ) ≤ p := by
  have h1 : ((Int.toNat ⌊p⌋ : ℕ) : ℚ) = ((⌊p⌋ : ℤ) : ℚ) := by
    rw [← Int.toNat_of_nonneg (Int.floor_nonneg.2 hp)]
    push_cast
    rfl
  rw [h1]
  exact Int.floor_le p

theorem rat_lt_toNat_floor_add_one (p : ℚ) (hp : 0 ≤ p) :
    p < ((Int.toNat ⌊p⌋ : ℕ) : ℚ) + 1 := by
  have h1 : ((Int.toNat ⌊p⌋ : ℕ) : ℚ) = ((⌊p⌋ : ℤ) : ℚ) := by
    rw [← Int.toNat_of_nonneg (Int.floor_nonneg.2 hp)]
    push_cast
    rfl
  rw [h1]
  exact_mod_cast Int.lt_floor_add_one p

theorem toNat_floor_le_of_le (p : ℚ) (k : Nat) (hk : p ≤ (k : ℚ)) :
    Int.toNat ⌊p⌋ ≤ k := by
  have h1 : ⌊p⌋ ≤ (k : ℤ) := by
    rw [show ((k : ℤ) : ℤ) = ⌊((k : ℕ) : ℚ)⌋ from (Int.floor_natCast k).symm]
    exact Int.floor_le_floor hk
  calc Int.toNat ⌊p⌋ ≤ Int.toNat (k : ℤ) := Int.toNat_le_toNat h1
  _ = k := Int.toNat_natCast k

theorem interpQ_mono (v : List ℚ) (hs : List.Sorted (· ≤ ·) v) (hne : v ≠ [])
    (q1 q2 : ℚ) (h0 : 0 ≤ q1) (h12 : q1 ≤ q2) (h21 : q2 ≤ 1) :
    interpQ v q1 ≤ interpQ v q2 := by
  have hm : 1 ≤ v.length := List.length_pos.2 hne
  have hm1 : (0:ℚ) ≤ (v.length : ℚ) - 1 := by
    have h : (1:ℚ) ≤ (v.length : ℚ) := by exact_mod_cast hm
    linarith
  have hcast : ((v.length - 1 : ℕ) : ℚ) = (v.length : ℚ) - 1 := by
    push_cast [hm]
    ring
  set p1 := q1 * ((v.length : ℚ) - 1) with hp1def
  set p2 := q2 * ((v.length : ℚ) - 1) with hp2def
  have hp10 : 0 ≤ p1 := mul_nonneg h0 hm1
  have hp20 : 0 ≤ p2 := mul_nonneg (le_trans h0 h12) hm1
  have hp12 : p1 ≤ p2 := mul_le_mul_of_nonneg_right h12 hm1
  have hp2m : p2 ≤ (v.length : ℚ) - 1 := by
    calc p2 ≤ 1 * ((v.length : ℚ) - 1) := mul_le_mul_of_nonneg_right h21 hm1
    _ = (v.length : ℚ) - 1 := one_mul _
  have hp1m : p1 ≤ (v.length : ℚ) - 1 := le_trans hp12 hp2m
  set l1 := Int.toNat ⌊p1⌋ with hl1def
  set l2 := Int.toNat ⌊p2⌋ with hl2def
  have hfl1 : ((l1 : ℕ) : ℚ) ≤ p1 := toNat_floor_le_rat p1 hp10
  have hfl2 : ((l2 : ℕ) : ℚ) ≤ p2 := toNat_floor_le_rat p2 hp20
  have hg11 : p1 < ((l1 : ℕ) : ℚ) + 1 := rat_lt_toNat_floor_add_one p1 hp10
  have hg21 : p2 < ((l2 : ℕ) : ℚ) + 1 := rat_lt_toNat_floor_add_one p2 hp20
  have hl12 : l1 ≤ l2 := Int.toNat_le_toNat (Int.floor_le_floor hp12)
  have hl1m : l1 ≤ v.length - 1 :=
    toNat_floor_le_of_le p1 (v.length - 1) (by rw [hcast]; exact hp1m)
  have hl2m : l2 ≤ v.length - 1 :=
    toNat_floor_le_of_le p2 (v.length - 1) (by rw [hcast]; exact hp2m)
  have hmin1lt : min (l1 + 1) (v.length - 1) < v.length :=
    lt_of_le_of_lt (min_le_right _ _) (by omega)
  have hmin2lt : min (l2 + 1) (v.length - 1) < v.length :=
    lt_of_le_of_lt (min_le_right _ _) (by omega)
  have ha1b1 : v.getD l1 0 ≤ v.getD (min (l1 + 1) (v.length - 1)) 0 :=
    sorted_getD_mono v hs l1 _ (le_min (Nat.le_succ l1) hl1m) hmin1lt
  have ha2b2 : v.getD l2 0 ≤ v.getD (min (l2 + 1) (v.length - 1)) 0 :=
    sorted_getD_mono v hs l2 _ (le_min (Nat.le_succ l2) hl2m) hmin2lt
  rw [interpQ_eq, interpQ_eq, ← hp1def, ← hp2def, ← hl1def, ← hl2def]
  rcases eq_or_lt_of_le hl12 with heq | hlt
  · rw [← heq]
    have hgg : p1 - ((l1 : ℕ) : ℚ) ≤ p2 - ((l1 : ℕ) : ℚ) := by linarith
    have hmul := mul_le_mul_of_nonneg_right hgg (sub_nonneg.2 ha1b1)
    linarith
  · have hup1 : v.getD l1 0 +
        (p1 - ((l1 : ℕ) : ℚ)) * (v.getD (min (l1 + 1) (v.length - 1)) 0 - v.getD l1 0) ≤
        v.getD (min (l1 + 1) (v.length - 1)) 0 := by
      have hle1 : p1 - ((l1 : ℕ) : ℚ) ≤ 1 := by linarith
      have hmul := mul_le_mul_of_nonneg_right hle1 (sub_nonneg.2 ha1b1)
      linarith
    have hmid : v.getD (min (l1 + 1) (v.length - 1)) 0 ≤ v.getD l2 0 :=
      sorted_getD_mono v hs _ l2
        (le_trans (min_le_left _ _) (Nat.succ_le_of_lt hlt)) (by omega)
    have hlo2 : v.getD l2 0 ≤ v.getD l2 0 +
        (p2 - ((l2 : ℕ) : ℚ)) * (v.getD (min (l2 + 1) (v.length - 1)) 0 - v.getD l2 0) := by
      have hmul := mul_nonneg (by linarith : (0:ℚ) ≤ p2 - ((l2 : ℕ) : ℚ))
        (sub_nonneg.2 ha2b2)
      linarith
    linarith

theorem quantileF_eq_of_sorted (xs : List FVal) (q : ℚ) (v0 : FVal) (vt : List FVal)
    (hv : sortF (nonNan xs) = v0 :: vt) :
    quantileF xs q =
      fvAdd ((v0 :: vt).getD (Int.toNat ⌊q * (((v0 :: vt).length : ℚ) - 1)⌋) .nan)
        (fvMul (.fin (q * (((v0 :: vt).length : ℚ) - 1) -
            ((Int.toNat ⌊q * (((v0 :: vt).length : ℚ) - 1)⌋ : ℕ) : ℚ)))
          (fvSub ((v0 :: vt).getD
              (min (Int.toNat ⌊q * (((v0 :: vt).length : ℚ) - 1)⌋ + 1)
                ((v0 :: vt).length - 1)) .nan)
            ((v0 :: vt).getD (Int.toNat ⌊q * (((v0 :: vt).length : ℚ) - 1)⌋) .nan))) := by
  simp only [quantileF]
  rw [hv]

theorem quantileF_map_fin (l : List ℚ) (hne : l ≠ []) (q : ℚ)
    (hq0 : 0 ≤ q) (hq1 : q ≤ 1) :
    quantileF (l.map FVal.fin) q =
      .fin (interpQ (List.insertionSort (fun a b : ℚ => a ≤ b) l) q) := by
  obtain ⟨s0, st, hS⟩ : ∃ s0 st,
      List.insertionSort (fun a b : ℚ => a ≤ b) l = s0 :: st := by
    have hslen : (List.insertionSort (fun a b : ℚ => a ≤ b) l).length = l.length :=
      List.length_insertionSort _ _
    cases hC : List.insertionSort (fun a b : ℚ => a ≤ b) l with
    | nil =>
        rw [hC] at hslen
        exact absurd (List.length_eq_zero.1 hslen.symm) hne
    | cons a t => exact ⟨a, t, rfl⟩
  have hv : sortF (nonNan (l.map FVal.fin)) = FVal.fin s0 :: st.map FVal.fin := by
    rw [nonNan_map_fin, sortF_map_fin, hS, List.map_cons]
  rw [hS, quantileF_eq_of_sorted (l.map FVal.fin) q _ _ hv]
  have hL : (FVal.fin s0 :: st.map FVal.fin) = (s0 :: st).map FVal.fin := rfl
  rw [hL]
  simp only [List.length_map]
  have hm1 : 1 ≤ (s0 :: st).length := by simp
  have hmq : (0:ℚ) ≤ ((s0 :: st).length : ℚ) - 1 := by
    have h : (1:ℚ) ≤ ((s0 :: st).length : ℚ) := by exact_mod_cast hm1
    linarith
  have hp0 : 0 ≤ q * (((s0 :: st).length : ℚ) - 1) := mul_nonneg hq0 hmq
  have hpm : q * (((s0 :: st).length : ℚ) - 1) ≤ ((s0 :: st).length : ℚ) - 1 := by
    calc q * (((s0 :: st).length : ℚ) - 1) ≤ 1 * (((s0 :: st).length : ℚ) - 1) :=
          mul_le_mul_of_nonneg_right hq1 hmq
    _ = ((s0 :: st).length : ℚ) - 1 := one_mul _
  have hcast : (((s0 :: st).length - 1 : ℕ) : ℚ) = ((s0 :: st).length : ℚ) - 1 := by
    push_cast [hm1]
    ring
  have hidx : Int.toNat ⌊q * (((s0 :: st).length : ℚ) - 1)⌋ ≤ (s0 :: st).length - 1 :=
    toNat_floor_le_of_le _ _ (by rw [hcast]; exact hpm)
  have hidx_lt : Int.toNat ⌊q * (((s0 :: st).length : ℚ) - 1)⌋ < (s0 :: st).length := by
    omega
  have hmin_lt : min (Int.toNat ⌊q * (((s0 :: st).length : ℚ) - 1)⌋ + 1)
      ((s0 :: st).length - 1) < (s0 :: st).length := by
    have h := min_le_right (Int.toNat ⌊q * (((s0 :: st).length : ℚ) - 1)⌋ + 1)
      ((s0 :: st).length - 1)
    omega
  rw [getD_map_fin (s0 :: st) _ hidx_lt, getD_map_fin (s0 :: st) _ hmin_lt,
    fvSub_fin, fvMul_fin, fvAdd_fin, interpQ_eq]

theorem fvClip_fin_mem (x lo hi : ℚ) (hlohi : lo ≤ hi) :
    fvLe (.fin lo) (fvClip (.fin x) (.fin lo) (.fin hi)) = true ∧
    fvLe (fvClip (.fin x) (.fin lo) (.fin hi)) (.fin hi) = true := by
  by_cases h1 : x < lo
  · have h2 : ¬ hi < lo := not_lt.2 hlohi
    simp [fvClip, h1, h2, hlohi]
  · by_cases h2 : hi < x
    · simp [fvClip, h1, h2, hlohi]
    · simp [fvClip, h1, h2, not_lt.1 h1, not_lt.1 h2]

/-- C2: after `clean_data`, every value of a non-`Time` column of finite
values lies within `[Q1 - 1.5*IQR, Q3 + 1.5*IQR]` computed from the
pre-clip column; out-of-range values are replaced by the nearest bound
(the column is the pointwise clip of the original), and no row is
removed (the column keeps its length). -/
theorem C2_outlier_clipping (df : DF) (c : String) (xs : List FVal)
    (hmem : (c, xs) ∈ df.cols) (hc : c ≠ "Time")
    (hnodup : (colNames df).Nodup)
    (hfin : ∀ x ∈ xs, x.isFin = true) :
    getCol (clean_data df) c =
      xs.map (fun x => fvClip x
        (fvSub (quantileF xs (1/4))
          (fvMul (.fin (3/2)) (fvSub (quantileF xs (3/4)) (quantileF xs (1/4)))))
        (fvAdd (quantileF xs (3/4))
          (fvMul (.fin (3/2)) (fvSub (quantileF xs (3/4)) (quantileF xs (1/4)))))) ∧
    (getCol (clean_data df) c).length = xs.length ∧
    ∀ y ∈ getCol (clean_data df) c,
      fvLe (fvSub (quantileF xs (1/4))
          (fvMul (.fin (3/2)) (fvSub (quantileF xs (3/4)) (quantileF xs (1/4))))) y = true ∧
      fvLe y (fvAdd (quantileF xs (3/4))
          (fvMul (.fin (3/2)) (fvSub (quantileF xs (3/4)) (quantileF xs (1/4))))) = true := by
  have hfind := find?_name_of_nodup df.cols c xs hnodup hmem
  have hnn : ∀ x ∈ xs, x.isNan = false := by
    intro x hx
    have h := hfin x hx
    cases x with
    | fin a => rfl
    | pinf => rfl
    | ninf => rfl
    | nan => exact absurd h (by simp [FVal.isFin])
  have hfill : fillPair (c, xs) = (c, xs) := by
    unfold fillPair
    have hff : ffillCol xs = xs := ffillGo_id xs hnn none
    rw [hff, bfillCol_id xs hnn]
  have hget : getCol (clean_data df) c = (clipPair (c, xs)).2 := by
    rw [getCol_clean_eq, hfind]
    show (clipPair (fillPair (c, xs))).2 = (clipPair (c, xs)).2
    rw [hfill]
  have hclip : (clipPair (c, xs)).2 =
      xs.map (fun x => fvClip x
        (fvSub (quantileF xs (1/4))
          (fvMul (.fin (3/2)) (fvSub (quantileF xs (3/4)) (quantileF xs (1/4)))))
        (fvAdd (quantileF xs (3/4))
          (fvMul (.fin (3/2)) (fvSub (quantileF xs (3/4)) (quantileF xs (1/4)))))) := by
    simp only [clipPair]
    rw [if_neg hc]
  obtain ⟨l, rfl⟩ := all_fin_exists xs hfin
  cases l with
  | nil =>
      refine ⟨hget.trans hclip, ?_, ?_⟩
      · rw [hget, hclip, List.length_map]
      · intro y hy
        rw [hget, hclip] at hy
        simp at hy
  | cons a t =>
      have hne : (a :: t) ≠ [] := by simp
      have hq1 := quantileF_map_fin (a :: t) hne (1/4) (by norm_num) (by norm_num)
      have hq3 := quantileF_map_fin (a :: t) hne (3/4) (by norm_num) (by norm_num)
      set s := List.insertionSort (fun x y : ℚ => x ≤ y) (a :: t) with hsdef
      have hsorted : List.Sorted (fun x y : ℚ => x ≤ y) s := by
        rw [hsdef]
        exact List.sorted_insertionSort _ _
      have hsne : s ≠ [] := by
        have hslen : s.length = (a :: t).length := by
          rw [hsdef]
          exact List.length_insertionSort _ _
        intro h
        rw [h] at hslen
        simp at hslen
      have hQ13 : interpQ s (1/4) ≤ interpQ s (3/4) :=
        interpQ_mono s hsorted hsne (1/4) (3/4) (by norm_num) (by norm_num) (by norm_num)
      have hlo : fvSub (quantileF ((a :: t).map FVal.fin) (1/4))
          (fvMul (.fin (3/2)) (fvSub (quantileF ((a :: t).map FVal.fin) (3/4))
            (quantileF ((a :: t).map FVal.fin) (1/4)))) =
          .fin (interpQ s (1/4) - 3/2 * (interpQ s (3/4) - interpQ s (1/4))) := by
        rw [hq1, hq3]
        simp
      have hhi : fvAdd (quantileF ((a :: t).map FVal.fin) (3/4))
          (fvMul (.fin (3/2)) (fvSub (quantileF ((a :: t).map FVal.fin) (3/4))
            (quantileF ((a :: t).map FVal.fin) (1/4)))) =
          .fin (interpQ s (3/4) + 3/2 * (interpQ s (3/4) - interpQ s (1/4))) := by
        rw [hq1, hq3]
        simp
      have hbound : interpQ s (1/4) - 3/2 * (interpQ s (3/4) - interpQ s (1/4)) ≤
          interpQ s (3/4) + 3/2 * (interpQ s (3/4) - interpQ s (1/4)) := by
        linarith
      refine ⟨hget.trans hclip, ?_, ?_⟩
      · rw [hget, hclip, List.length_map]
      · intro y hy
        rw [hget, hclip] at hy
        rcases List.mem_map.1 hy with ⟨x, hx, rfl⟩
        rcases List.mem_map.1 hx with ⟨r, hr, rfl⟩
        rw [hlo, hhi]
        exact fvClip_fin_mem r _ _ hbound

theorem C2_witness :
    (("x", [FVal.fin 0, FVal.fin 100, FVal.fin 4, FVal.fin 6]) ∈ df2.cols ∧
      "x" ≠ "Time" ∧ (colNames df2).Nodup ∧
      (∀ x ∈ [FVal.fin 0, FVal.fin 100, FVal.fin 4, FVal.fin 6], x.isFin = true)) ∧
    (getCol (clean_data df2) "x" =
      [FVal.fin 0, FVal.fin 100, FVal.fin 4, FVal.fin 6].map (fun x => fvClip x
        (fvSub (quantileF [FVal.fin 0, FVal.fin 100, FVal.fin 4, FVal.fin 6] (1/4))
          (fvMul (.fin (3/2))
            (fvSub (quantileF [FVal.fin 0, FVal.fin 100, FVal.fin 4, FVal.fin 6] (3/4))
              (quantileF [FVal.fin 0, FVal.fin 100, FVal.fin 4, FVal.fin 6] (1/4)))))
        (fvAdd (quantileF [FVal.fin 0, FVal.fin 100, FVal.fin 4, FVal.fin 6] (3/4))
          (fvMul (.fin (3/2))
            (fvSub (quantileF [FVal.fin 0, FVal.fin 100, FVal.fin 4, FVal.fin 6] (3/4))
              (quantileF [FVal.fin 0, FVal.fin 100, FVal.fin 4, FVal.fin 6] (1/4)))))) ∧
     (getCol (clean_data df2) "x").length =
       [FVal.fin 0, FVal.fin 100, FVal.fin 4, FVal.fin 6].length ∧
     ∀ y ∈ getCol (clean_data df2) "x",
       fvLe (fvSub (quantileF [FVal.fin 0, FVal.fin 100, FVal.fin 4, FVal.fin 6] (1/4))
          (fvMul (.fin (3/2))
            (fvSub (quantileF [FVal.fin 0, FVal.fin 100, FVal.fin 4, FVal.fin 6] (3/4))
              (quantileF [FVal.fin 0, FVal.fin 100, FVal.fin 4, FVal.fin 6] (1/4))))) y
           = true ∧
       fvLe y (fvAdd (quantileF [FVal.fin 0, FVal.fin 100, FVal.fin 4, FVal.fin 6] (3/4))
          (fvMul (.fin (3/2))
            (fvSub (quantileF [FVal.fin 0, FVal.fin 100, FVal.fin 4, FVal.fin 6] (3/4))
              (quantileF [FVal.fin 0, FVal.fin 100, FVal.fin 4, FVal.fin 6] (1/4)))))
           = true) :=
  ⟨⟨by decide, by decide, by decide, by decide⟩,
    C2_outlier_clipping df2 "x" [FVal.fin 0, FVal.fin 100, FVal.fin 4, FVal.fin 6]
      (by decide) (by decide) (by decide) (by decide)⟩
